import Mathlib

/-!
Verification model of the notebook document engine in `src/index.tsx`:
the line-oriented parser (`parseNotebookFile`), the serializer
(`downloadNotebook`), the cell store and its mutation operations
(`addCell`, `deleteCell`, `moveCell`, the Sortable `onEnd` handler),
the execution engine (`runCell`, `restartKernel`, `persistentScope`),
the staleness tracker (`checkContentChanged`, `markCellAsUnexecuted`,
`markCellAsExecuted`), focus lookup (`getFocusedCell`) and the clipboard
(`cutCell`, `copyCell`, `pasteCell`).

Strings are modelled as `List Char` so that splitting on newlines and
trimming are structurally recursive and amenable to induction.  JavaScript
`undefined` fields are modelled as `Option`/`false`/`[]` as noted on each
definition.  The dynamic execution of a cell's script text (performed in
the source by `new AsyncFunction(...)`) is not translatable; it is a
parameter (`Oracle`) describing what the constructed script does, while
every piece of engine control flow around it is modelled faithfully.
-/

namespace NotebookModel

/-- Character sequences; the model of JavaScript strings. -/
abbrev Chars := List Char

/-- Whitespace characters relevant to the ASCII texts handled here;
models the character class that JavaScript `String.prototype.trim`
removes (the source only ever trims ASCII content). -/
def wsChar (c : Char) : Bool :=
  c = ' ' || c = '\t' || c = '\n' || c = '\r'

/-- Model of JavaScript `s.trimStart()`-like left trimming (used as half
of `trim`). -/
def trimLeft (s : Chars) : Chars := s.dropWhile wsChar

/-- Model of right trimming: drop trailing whitespace. -/
def trimRight (s : Chars) : Chars := ((s.reverse).dropWhile wsChar).reverse

/-- Model of JavaScript `s.trim()`. -/
def trimText (s : Chars) : Chars := trimRight (trimLeft s)

/-- Model of JavaScript `content.split('\n')`: always returns at least one
(possibly empty) line. -/
def splitLines : Chars → List Chars
  | [] => [[]]
  | c :: cs =>
    if c = '\n' then [] :: splitLines cs
    else
      match splitLines cs with
      | [] => [[c]]
      | l :: rest => (c :: l) :: rest

/-- Model of `lines.join('\n')`. -/
def joinLines : List Chars → Chars
  | [] => []
  | [l] => l
  | l :: ls => l ++ '\n' :: joinLines ls

/-- Model of the accumulation statement
`acc += (acc ? '\n' : '') + line` used by the parser for markdown and
output blocks. -/
def jsAppend (acc l : Chars) : Chars :=
  if acc = [] then l else acc ++ '\n' :: l

/-- The apostrophe character, written via its code point. -/
def apos : Char := Char.ofNat 39

/-- Marker line opening a code block (`// [CODE STARTS]`). -/
def codeStartMark : Chars := "// [CODE STARTS]".toList

/-- Marker line closing a code block (`// [CODE ENDS]`). -/
def codeEndMark : Chars := "// [CODE ENDS]".toList

/-- Opening token of a markdown block (`/* Markdown`). -/
def mdMark : Chars := "/* Markdown".toList

/-- Opening token of an output block (`/* Output`). -/
def outMark : Chars := "/* Output".toList

/-- The render qualifier scanned for inside a markdown opener. -/
def renderTag : Chars := "(render)".toList

/-- The close token ending markdown and output blocks (`*/`). -/
def closeMark : Chars := "*/".toList

/-- The markdown opener emitted by the serializer for rendered cells. -/
def mdRenderLine : Chars := "/* Markdown (render)".toList

/-- The output-block opener emitted by the serializer. -/
def outSampleLine : Chars := "/* Output Sample".toList

/-- Cell kinds: `'js' | 'md'` in the source. -/
inductive CellType
  | js
  | md
deriving DecidableEq

/-- Markdown display mode: `'edit' | 'render'` in the source. -/
inductive MdMode
  | edit
  | render
deriving DecidableEq

/-- Tagged output records, the `Output` union of the source: `log` and
`error` carry text, `image` carries data plus a mime type. -/
inductive Output
  | log (data : Chars)
  | error (data : Chars)
  | image (data : Chars) (mime : Chars)
deriving DecidableEq

/-- The text payload of an output record. -/
def Output.payload : Output → Chars
  | .log d => d
  | .error d => d
  | .image d _ => d

/-- Proto-cell records produced by `parseNotebookFile` and consumed by the
serializer: kind, text, markdown mode (`none` for code cells, matching the
absent field in the source) and outputs (`[]` models the absent `outputs`
field of parsed markdown cells). -/
structure ProtoCell where
  ctype : CellType
  code : Chars
  mode : Option MdMode
  outputs : List Output
deriving DecidableEq

/-- Mutable locals of `parseNotebookFile` while scanning lines. -/
structure ParseState where
  acc : List ProtoCell
  jsLines : List Chars
  mdContent : Chars
  outputContent : Chars
  inCode : Bool
  inMd : Bool
  inOut : Bool
  mdMode : MdMode
deriving DecidableEq

/-- Model of the parser's `addJsCell` closure: flush the pending code
lines into a code cell whenever at least one line was collected (even a
whitespace-only line counts), joining with newlines and trimming. -/
def addJsCell (st : ParseState) : ParseState :=
  if st.jsLines ≠ [] then
    { st with
      acc := st.acc ++ [⟨.js, trimText (joinLines st.jsLines), none, []⟩],
      jsLines := [] }
  else st

/-- Model of the parser's `addMdCell` closure: flush the pending markdown
content when its trimmed form is nonempty; otherwise keep state (the
source neither pushes a cell nor resets the accumulator then). -/
def addMdCell (st : ParseState) : ParseState :=
  if trimText st.mdContent ≠ [] then
    { st with
      acc := st.acc ++ [⟨.md, trimText st.mdContent, some st.mdMode, []⟩],
      mdContent := [] }
  else st

/-- Helper for `addOutputFlush`: walk the reversed cell list and append
the output to the first (i.e. most recently parsed) code cell, models
`[...cellsData].reverse().find((c) => c.type === 'js')` followed by the
in-place push. -/
def attachRev : List ProtoCell → Output → List ProtoCell
  | [], _ => []
  | c :: rest, o =>
    if c.ctype = .js then { c with outputs := c.outputs ++ [o] } :: rest
    else c :: attachRev rest o

/-- Append an output to the most recently parsed code cell, leaving the
list unchanged when it contains no code cell. -/
def attachToLastJs (acc : List ProtoCell) (o : Output) : List ProtoCell :=
  (attachRev acc.reverse o).reverse

/-- Model of the parser's `addOutput` closure: when the trimmed pending
output content is nonempty and at least one cell exists, attach it as a
single `log` output to the most recent code cell and reset the
accumulator; otherwise keep state unchanged (in particular the
accumulator is not reset when no cell exists yet). -/
def addOutputFlush (st : ParseState) : ParseState :=
  if trimText st.outputContent ≠ [] ∧ st.acc ≠ [] then
    { st with
      acc := attachToLastJs st.acc (.log (trimText st.outputContent)),
      outputContent := [] }
  else st

/-- Model of JavaScript `s.includes(pat)`: does `pat` occur as a
contiguous subsequence of `s`? -/
def hasInfix (pat : Chars) : Chars → Bool
  | [] => pat.isEmpty
  | c :: cs => pat.isPrefixOf (c :: cs) || hasInfix pat cs

/-- Model of the `line.replace(/\*\/\s*$/, '')` call: the regular
expression removes the final `*/` together with the whitespace following
it (the guard ensures the trimmed line ends with the close token, so the
trailing-whitespace-stripped line ends with `*/`). -/
def dropCloser (line : Chars) : Chars :=
  (trimRight line).take ((trimRight line).length - 2)

/-- First half of the close-token branch of the parser loop: when the
residual content before the close token is nonempty, append it to the
open markdown or output accumulation (the block flags are not changed by
this statement, so reading them before or after it is equivalent). -/
def closeAppend (st : ParseState) (contentLine : Chars) : ParseState :=
  if contentLine ≠ [] then
    if st.inMd then { st with mdContent := jsAppend st.mdContent contentLine }
    else if st.inOut then { st with outputContent := jsAppend st.outputContent contentLine }
    else st
  else st

/-- Second half of the close-token branch: flush the open markdown or
output block (nothing when neither is open, e.g. inside a code block —
the line is then simply lost) and leave both flags cleared. -/
def closeFlush (st : ParseState) : ParseState :=
  if st.inMd then { addMdCell st with inMd := false, inOut := false }
  else if st.inOut then { addOutputFlush st with inMd := false, inOut := false }
  else { st with inMd := false, inOut := false }

/-- One iteration of the parser's `lines.forEach` body, with the branch
conditions tested on the trimmed line in source order. -/
def parseStep (st : ParseState) (line : Chars) : ParseState :=
  if trimText line = codeStartMark then
    { addOutputFlush (addMdCell st) with inCode := true, inMd := false, inOut := false }
  else if trimText line = codeEndMark then
    { addJsCell st with inCode := false }
  else if mdMark.isPrefixOf (trimText line) then
    { addOutputFlush (addJsCell st) with
      mdMode := if hasInfix renderTag (trimText line) then .render else .edit,
      inMd := true, inCode := false, inOut := false }
  else if outMark.isPrefixOf (trimText line) then
    { addMdCell (addJsCell st) with inOut := true, inCode := false, inMd := false }
  else if closeMark.isSuffixOf (trimText line) then
    closeFlush (closeAppend st (trimText (dropCloser line)))
  else if st.inCode then { st with jsLines := st.jsLines ++ [line] }
  else if st.inMd then { st with mdContent := jsAppend st.mdContent line }
  else if st.inOut then { st with outputContent := jsAppend st.outputContent line }
  else st

/-- Initial parser state: empty accumulators, no open block, markdown
mode defaulting to `'edit'`. -/
def initParseState : ParseState :=
  { acc := [], jsLines := [], mdContent := [], outputContent := [],
    inCode := false, inMd := false, inOut := false, mdMode := .edit }

/-- The trailing flushes executed after the line loop, in source order
(`addJsCell(); addMdCell(); addOutput();`). -/
def finishParse (st : ParseState) : ParseState :=
  addOutputFlush (addMdCell (addJsCell st))

/-- Parse a list of lines into proto-cells. -/
def parseLinesF (lines : List Chars) : List ProtoCell :=
  (finishParse (lines.foldl parseStep initParseState)).acc

/-- Model of `parseNotebookFile`: split the document text on newlines and
fold the line handler over it. -/
def parseNotebookFile (content : Chars) : List ProtoCell :=
  parseLinesF (splitLines content)

/-- Model of the escape map `{'<', '>', '&', '"', apostrophe}` to HTML
entities used when serializing non-image outputs. -/
def escapeChar (c : Char) : Chars :=
  if c = '<' then "&lt;".toList
  else if c = '>' then "&gt;".toList
  else if c = '&' then "&amp;".toList
  else if c = '"' then "&quot;".toList
  else if c = apos then "&#x27;".toList
  else [c]

/-- Model of `String(output.data).replace(/[<>&"']/g, ...)`. -/
def escapeText (s : Chars) : Chars := (s.map escapeChar).flatten

/-- Characters stripped from an image `src` by
`imgSrc.replace(/[<>"']/g, '')`. -/
def strippedChar (c : Char) : Bool :=
  c = '<' || c = '>' || c = '"' || c = apos

/-- Model of the `imgSrc` computation in `downloadNotebook`: keep a
`data:` URI as is, otherwise build a base64 data URI from data and mime. -/
def imageSrc (data mime : Chars) : Chars :=
  if "data:".toList.isPrefixOf data then data
  else "data:".toList ++ mime ++ ";base64,".toList ++ data

/-- Serialization of one output inside an output block, matching the
`cell.outputs.forEach` body of `downloadNotebook` (each piece ends with a
blank line). -/
def serializeOutput (o : Output) : Chars :=
  match o with
  | .image data mime =>
    "<img src=\"".toList ++ ((imageSrc data mime).filter (fun c => !strippedChar c))
      ++ "\" style=\"height:auto; width:100%;\" />\n\n".toList
  | .log d => escapeText d ++ "\n\n".toList
  | .error d => escapeText d ++ "\n\n".toList

/-- Serialization of one cell, matching the `cells.forEach` body of
`downloadNotebook`: markdown cells emit their opener (with render
qualifier when `mode` is `render`), text and close token; code cells emit
the code markers around the text, then an output block when outputs are
nonempty. -/
def serializeCell (c : ProtoCell) : Chars :=
  match c.ctype with
  | .md =>
    (if c.mode = some .render then mdRenderLine else mdMark)
      ++ '\n' :: c.code ++ "\n*/\n\n".toList
  | .js =>
    codeStartMark ++ '\n' :: c.code ++ '\n' :: codeEndMark ++ "\n\n".toList
      ++ (if c.outputs.isEmpty then []
          else "/* Output Sample\n\n".toList
            ++ (c.outputs.map serializeOutput).flatten
            ++ "*/\n\n".toList)

/-- Model of `downloadNotebook` (the text it serializes, before the
download mechanics): concatenate every cell's serialization and trim the
result, as `new Blob([content.trim()], ...)` does.  The cell text that
the source reads from the Monaco editor is carried in each record's
`code` field. -/
def downloadNotebook (cells : List ProtoCell) : Chars :=
  trimText ((cells.map serializeCell).flatten)

/-- Model of a Monaco editor instance as the engine observes it: its
current text (`getValue()`) and whether it has text focus
(`hasTextFocus()`). -/
structure EditorRec where
  text : Chars
  focused : Bool
deriving DecidableEq

/-- Model of the `Cell` interface.  Cell ids are the numeric counter part
of the source's `cell${cellCounter++}` strings.  The optional boolean
fields (`isOutputVisible`, `isExecuted`) are modelled as plain booleans
with `false` for `undefined`, matching their truthiness uses; the
optional `mode` and `lastExecutedContent` stay `Option`. -/
structure Cell where
  id : Nat
  ctype : CellType
  mode : Option MdMode
  outputs : List Output
  isOutputVisible : Bool
  isExecuted : Bool
  lastExecutedContent : Option Chars
deriving DecidableEq

/-- The module-level mutable state of the engine: `cellCounter`, `cells`,
`monacoInstances` (an insertion-ordered keyed list), `cellClipboard`,
`focusedCellId` and `persistentScope` (an insertion-ordered key/value
list over an abstract value type `V`). -/
structure NotebookState (V : Type) where
  counter : Nat
  cells : List Cell
  editors : List (Nat × EditorRec)
  clipboard : Option (Cell × Chars)
  focusedCellId : Option Nat
  scope : List (Chars × V)
deriving DecidableEq

/-- Reading a key of `persistentScope`. -/
def lookupScope {V : Type} (σ : List (Chars × V)) (n : Chars) : Option V :=
  (σ.find? (fun p => decide (p.1 = n))).map (·.2)

/-- Model of `cells.find((c) => c.id === cellId)`. -/
def findCell (cells : List Cell) (i : Nat) : Option Cell :=
  cells.find? (fun c => decide (c.id = i))

/-- Model of `monacoInstances[cellId]`. -/
def findEditor (eds : List (Nat × EditorRec)) (i : Nat) : Option EditorRec :=
  (eds.find? (fun e => decide (e.1 = i))).map (·.2)

/-- Update the first cell satisfying the predicate, the pure rendering of
`const cell = cells.find(...)` followed by in-place mutation of the found
record. -/
def updFirst (p : Cell → Bool) (g : Cell → Cell) : List Cell → List Cell
  | [] => []
  | c :: rest => if p c then g c :: rest else c :: updFirst p g rest

/-- Update the first cell with the given id. -/
def updCellId (cells : List Cell) (i : Nat) (g : Cell → Cell) : List Cell :=
  updFirst (fun c => decide (c.id = i)) g cells

/-- What the script constructed from a cell's text does when invoked, the
untranslatable part of `runCell`.  The source wraps the cell text as
`try { code } catch (e) { console.error(e); }` inside a fresh
`AsyncFunction`; accordingly: `ok` is a normal completion (final scope
plus captured outputs), `innerCaught` is a failure caught by that wrapper
(which turns into a `console.error` call carrying the failure's
description), `escaped` is a rejection that bypasses the wrapper and
reaches the engine's own `try`/`catch` around `await fn(...)`, and
`constructFailure` is `new AsyncFunction(...)` itself throwing (e.g. a
syntax error) — which in the source happens before, and outside of, that
`try`/`catch`. -/
inductive ExecResult (V : Type)
  | ok (scope : List (Chars × V)) (outs : List Output)
  | innerCaught (scope : List (Chars × V)) (outs : List Output) (desc : Chars)
  | escaped (scope : List (Chars × V)) (outs : List Output) (msg : Chars)
  | constructFailure (msg : Chars)

/-- Script semantics parameter: given the cell text and the scope passed
into the call, what the run does. -/
abbrev Oracle (V : Type) := Chars → List (Chars × V) → ExecResult V

/-- Model of `runCell` for the given script semantics.  Returns the new
state together with `some msg` when an exception propagates out of the
(async) call — the promise rejection the caller sees — and `none`
otherwise.  DOM elements are assumed present (their absence only causes
the logged early return also modelled here via the missing-cell and
missing-editor cases).  For markdown cells the run is the edit/render
toggle; display-only effects (DOM mutation, re-focusing) are not part of
the state. -/
def runCell {V : Type} (st : NotebookState V) (oracle : Oracle V) (i : Nat) :
    NotebookState V × Option Chars :=
  match findCell st.cells i, findEditor st.editors i with
  | some c, some ed =>
    let code := ed.text
    match c.ctype with
    | .md =>
      if c.mode = some .edit then
        ({ st with cells := updCellId st.cells i (fun c =>
            { c with mode := some .render, isOutputVisible := true }) }, none)
      else
        ({ st with cells := updCellId st.cells i (fun c =>
            { c with mode := some .edit, isOutputVisible := false }) }, none)
    | .js =>
      match oracle code st.scope with
      | .constructFailure msg =>
        ({ st with cells := updCellId st.cells i (fun c => { c with outputs := [] }) },
         some msg)
      | .ok σ outs =>
        ({ st with
            cells := updCellId st.cells i (fun c =>
              { c with outputs := outs,
                       isOutputVisible := if outs.isEmpty then c.isOutputVisible else true,
                       isExecuted := true, lastExecutedContent := some code }),
            scope := σ }, none)
      | .innerCaught σ outs d =>
        ({ st with
            cells := updCellId st.cells i (fun c =>
              { c with outputs := outs ++ [.error d],
                       isOutputVisible := true,
                       isExecuted := true, lastExecutedContent := some code }),
            scope := σ }, none)
      | .escaped σ outs m =>
        ({ st with
            cells := updCellId st.cells i (fun c =>
              { c with outputs := outs ++ [.error ("Uncaught: ".toList ++ m)],
                       isOutputVisible := true,
                       isExecuted := true, lastExecutedContent := some code }),
            scope := σ }, none)
  | _, _ => (st, none)

/-- Model of `restartKernel` after the user confirms: delete every own
key of `persistentScope`, and for every code cell clear `outputs` (the
other record fields are not written by the source; the DOM-only
`updateOutputToggle` call does not touch the record). -/
def restartKernel {V : Type} (st : NotebookState V) : NotebookState V :=
  { st with
    scope := [],
    cells := st.cells.map (fun c => if c.ctype = .js then { c with outputs := [] } else c) }

/-- Model of `array.splice(i, 0, a)`: insert at `i`, clamping an index
past the end to an append. -/
def spliceInsert {α : Type} (l : List α) (i : Nat) (a : α) : List α :=
  l.take i ++ a :: l.drop i

/-- The cell record built by `addCell` (its `newCellData` literal):
markdown cells start in `edit` mode, code cells have no mode; initial
output visibility is `outputs.length > 0` for code cells and the
`preRender` flag for markdown cells; `isExecuted` and
`lastExecutedContent` start absent. -/
def mkCell (id : Nat) (ty : CellType) (preRender : Bool) (outputs : List Output) : Cell :=
  { id := id, ctype := ty,
    mode := if ty = .md then some .edit else none,
    outputs := outputs,
    isOutputVisible := if ty = .js then !outputs.isEmpty else preRender,
    isExecuted := false, lastExecutedContent := none }

/-- Model of `addCell`: allocate the next id, create the Monaco editor
seeded with `code`, and insert the record at `index` (splice semantics)
or append.  The deferred `setTimeout(() => runCell(cellId), 0)` issued
for pre-rendered markdown cells only toggles display mode later and is
not part of this state transition. -/
def addCell {V : Type} (st : NotebookState V) (code : Chars) (ty : CellType)
    (preRender : Bool) (outputs : List Output) (index : Option Nat) : NotebookState V :=
  let c := mkCell st.counter ty preRender outputs
  { st with
    counter := st.counter + 1,
    cells := match index with
             | some i => spliceInsert st.cells i c
             | none => st.cells ++ [c],
    editors := st.editors ++ [(st.counter, { text := code, focused := false })] }

/-- Model of `deleteCell`: splice the record out when its id is found
(no-op otherwise), dispose and drop the editor.  `focusedCellId` is not
touched. -/
def deleteCell {V : Type} (st : NotebookState V) (i : Nat) : NotebookState V :=
  { st with
    cells := match st.cells.findIdx? (fun c => decide (c.id = i)) with
             | some idx => st.cells.eraseIdx idx
             | none => st.cells,
    editors := st.editors.filter (fun e => !decide (e.1 = i)) }

/-- Direction argument of `moveCell`. -/
inductive Dir
  | up
  | down
deriving DecidableEq

/-- Model of `moveCell`: find the cell's index, compute the neighbour
index, return unchanged at the boundary (`newIndex < 0` is the `up` case
at index `0`; `newIndex >= cells.length` is the `down` case at the last
index), otherwise splice the cell out and back in at the neighbour index.
The inner `none` branch cannot occur (`idx` comes from `findIdx?`) and
mirrors the source's safe destructuring of `splice`'s result. -/
def moveCell {V : Type} (st : NotebookState V) (i : Nat) (d : Dir) : NotebookState V :=
  match st.cells.findIdx? (fun c => decide (c.id = i)) with
  | none => st
  | some idx =>
    match st.cells[idx]? with
    | none => st
    | some c =>
      match d with
      | .up =>
        if idx = 0 then st
        else { st with cells := spliceInsert (st.cells.eraseIdx idx) (idx - 1) c }
      | .down =>
        if idx + 1 ≥ st.cells.length then st
        else { st with cells := spliceInsert (st.cells.eraseIdx idx) (idx + 1) c }

/-- Model of the Sortable `onEnd` handler over the raw JavaScript array,
whose entries can be `undefined` (`none`): when the indices differ,
`cells.splice(oldIndex, 1)` removes the entry at `oldIndex` (removing
nothing and yielding `undefined` as `movedItem` when `oldIndex` is out of
range), then `cells.splice(newIndex, 0, movedItem)` inserts `movedItem`
(clamping past-the-end indices to an append).  There is no range check in
the source. -/
def sortableOnEnd (arr : List (Option Cell)) (oldIdx newIdx : Nat) : List (Option Cell) :=
  if oldIdx = newIdx then arr
  else spliceInsert (arr.eraseIdx oldIdx) newIdx ((arr[oldIdx]?).join)

/-- The well-typed projection of the `onEnd` handler used for the store
trace: faithful to `sortableOnEnd` exactly when `oldIdx` addresses an
existing cell (the situation the drag gesture produces); when `oldIdx` is
out of range the raw handler inserts an `undefined` entry, which a list
of cells cannot hold — see the counterexamples settled on
`sortableOnEnd` itself. -/
def reorderCells (cells : List Cell) (oldIdx newIdx : Nat) : List Cell :=
  (sortableOnEnd (cells.map some) oldIdx newIdx).filterMap id

/-- The store mutations quantified over by the order invariant: insert
(`addCell`), delete, move, and drag reorder. -/
inductive StoreOp
  | ins (code : Chars) (ty : CellType) (preRender : Bool) (outputs : List Output)
        (index : Option Nat)
  | del (i : Nat)
  | move (i : Nat) (d : Dir)
  | reorder (oldIdx newIdx : Nat)

/-- Apply one store operation. -/
def applyOp {V : Type} (st : NotebookState V) : StoreOp → NotebookState V
  | .ins code ty pre outs idx => addCell st code ty pre outs idx
  | .del i => deleteCell st i
  | .move i d => moveCell st i d
  | .reorder o n => { st with cells := reorderCells st.cells o n }

/-- Apply a sequence of store operations. -/
def applyOps {V : Type} (st : NotebookState V) (ops : List StoreOp) : NotebookState V :=
  ops.foldl applyOp st

/-- Number of cells created by a trace: each insert creates exactly one. -/
def insCount : List StoreOp → Nat
  | [] => 0
  | .ins _ _ _ _ _ :: rest => insCount rest + 1
  | _ :: rest => insCount rest

/-- Number of cells actually deleted by a trace (a delete of an absent id
removes nothing). -/
def delCount {V : Type} (st : NotebookState V) : List StoreOp → Nat
  | [] => 0
  | op :: rest =>
    (match op with
     | .del i => if (st.cells.findIdx? (fun c => decide (c.id = i))).isSome then 1 else 0
     | _ => 0) + delCount (applyOp st op) rest

/-- A trace whose reorder events address an existing cell (what the drag
gesture guarantees); equal indices are allowed since the handler ignores
them. -/
def okTrace {V : Type} (st : NotebookState V) : List StoreOp → Bool
  | [] => true
  | op :: rest =>
    (match op with
     | .reorder o n => decide (o = n) || decide (o < st.cells.length)
     | _ => true)
    && okTrace (applyOp st op) rest

/-- Store validity: no duplicate ids and every id below the counter (so
freshly allocated ids never collide). -/
def validStore {V : Type} (st : NotebookState V) : Bool :=
  decide (st.cells.map Cell.id).Nodup && st.cells.all (fun c => decide (c.id < st.counter))

/-- Model of `markCellAsUnexecuted`: clear `isExecuted` and
`lastExecutedContent` on the first cell with the id (DOM class changes
omitted). -/
def markCellAsUnexecuted (cells : List Cell) (i : Nat) : List Cell :=
  updCellId cells i (fun c => { c with isExecuted := false, lastExecutedContent := none })

/-- Model of `checkContentChanged`: true when the cell is missing, not
executed, or its last executed content differs from the current text. -/
def checkContentChanged (cells : List Cell) (i : Nat) (current : Chars) : Bool :=
  match findCell cells i with
  | none => true
  | some c => !c.isExecuted || decide (c.lastExecutedContent ≠ some current)

/-- Model of the `onDidChangeModelContent` handler body: mark the cell
unexecuted exactly when `checkContentChanged` holds. -/
def handleContentChange (cells : List Cell) (i : Nat) (current : Chars) : List Cell :=
  if checkContentChanged cells i current then markCellAsUnexecuted cells i else cells

/-- First editor (in insertion order) reporting text focus; models the
`for (const cellId in monacoInstances)` scan. -/
def findFocusedEditor : List (Nat × EditorRec) → Option Nat
  | [] => none
  | (k, e) :: rest => if e.focused then some k else findFocusedEditor rest

/-- Model of `getFocusedCell`, returning the chosen cell (if any) and the
state with its `focusedCellId` side effects: a recorded focus id is
looked up directly (returning `none` when that cell no longer exists,
without falling back); otherwise the first focused editor is recorded and
its cell looked up; otherwise the first cell of a nonempty store is
recorded and returned. -/
def getFocusedCell {V : Type} (st : NotebookState V) : Option Cell × NotebookState V :=
  match st.focusedCellId with
  | some i => (findCell st.cells i, st)
  | none =>
    match findFocusedEditor st.editors with
    | some k => (findCell st.cells k, { st with focusedCellId := some k })
    | none =>
      match st.cells with
      | c :: _ => (some c, { st with focusedCellId := some c.id })
      | [] => (none, st)

/-- Model of `cutCell`: snapshot the focused cell and its editor text to
the clipboard, then delete it; with no focused cell, alert and change
nothing (beyond `getFocusedCell`'s own focus bookkeeping). -/
def cutCell {V : Type} (st : NotebookState V) : NotebookState V :=
  match getFocusedCell st with
  | (none, st1) => st1
  | (some c, st1) =>
    let code := match findEditor st1.editors c.id with
                | some ed => ed.text
                | none => []
    deleteCell { st1 with clipboard := some (c, code) } c.id

/-- Model of `copyCell`: like `cutCell` without the deletion. -/
def copyCell {V : Type} (st : NotebookState V) : NotebookState V :=
  match getFocusedCell st with
  | (none, st1) => st1
  | (some c, st1) =>
    let code := match findEditor st1.editors c.id with
                | some ed => ed.text
                | none => []
    { st1 with clipboard := some (c, code) }

/-- Model of `pasteCell`: with an empty clipboard, alert and change
nothing; otherwise insert a fresh cell right after the focused cell (or
at the end) seeded from the clipboard snapshot, which is left intact. -/
def pasteCell {V : Type} (st : NotebookState V) : NotebookState V :=
  match st.clipboard with
  | none => st
  | some (cd, code) =>
    let r := getFocusedCell st
    let insertIndex :=
      match r.1 with
      | some fc =>
        (match r.2.cells.findIdx? (fun c => decide (c.id = fc.id)) with
         | some j => j + 1
         | none => 0)
      | none => r.2.cells.length
    addCell r.2 code cd.ctype (cd.ctype = .md && cd.mode = some .render)
      cd.outputs (some insertIndex)

/-! ### Helper lemmas about the store primitives -/

lemma find?_updFirst (p : Cell → Bool) (g : Cell → Cell)
    (hg : ∀ c, p c = true → p (g c) = true) :
    ∀ l : List Cell, (updFirst p g l).find? p = (l.find? p).map g := by
  intro l
  induction l with
  | nil => rfl
  | cons c rest ih =>
    by_cases h : p c = true
    · rw [updFirst, if_pos h, List.find?_cons_of_pos _ (hg c h), List.find?_cons_of_pos _ h]
      rfl
    · rw [updFirst, if_neg h, List.find?_cons_of_neg _ (by simpa using h),
        List.find?_cons_of_neg _ (by simpa using h), ih]

lemma findCell_updCellId (cells : List Cell) (i : Nat) (g : Cell → Cell)
    (hg : ∀ c, (g c).id = c.id) :
    findCell (updCellId cells i g) i = (findCell cells i).map g := by
  unfold findCell updCellId
  apply find?_updFirst
  intro c hc
  simpa [hg] using hc

lemma findCell_map (cells : List Cell) (i : Nat) (f : Cell → Cell)
    (hf : ∀ c, (f c).id = c.id) :
    findCell (cells.map f) i = (findCell cells i).map f := by
  induction cells with
  | nil => rfl
  | cons c rest ih =>
    by_cases h : c.id = i
    · rw [findCell, List.map_cons, List.find?_cons_of_pos _ (by simpa [hf] using h),
        findCell, List.find?_cons_of_pos _ (by simpa using h)]
      rfl
    · rw [findCell, List.map_cons, List.find?_cons_of_neg _ (by simpa [hf] using h),
        findCell, List.find?_cons_of_neg _ (by simpa using h)]
      exact ih

lemma runCell_editors {V : Type} (st : NotebookState V) (o : Oracle V) (i : Nat) :
    (runCell st o i).1.editors = st.editors := by
  unfold runCell
  rcases h1 : findCell st.cells i with _ | c
  · simp
  · rcases h2 : findEditor st.editors i with _ | ed
    · simp
    · rcases h3 : c.ctype with _ | _
      · rcases h4 : o ed.text st.scope with _ | _ | _ | _ <;> simp [h3, h4]
      · by_cases h5 : c.mode = some MdMode.edit <;> simp [h3, h5]

lemma getFocusedCell_keeps {V : Type} (st : NotebookState V) :
    (getFocusedCell st).2.cells = st.cells ∧
    (getFocusedCell st).2.clipboard = st.clipboard ∧
    (getFocusedCell st).2.editors = st.editors := by
  unfold getFocusedCell
  rcases st.focusedCellId with _ | i
  · rcases h : findFocusedEditor st.editors with _ | k
    · rcases hc : st.cells with _ | ⟨c, rest⟩ <;> simp [hc]
    · simp
  · simp

/-! ### C6 — staleness tracking -/

/-- C6: a content change whose text differs from an executed cell's
last-executed text flips `isExecuted` to false; and once a cell is
unexecuted, any further content change (in particular one restoring
exactly the previously executed text) leaves `isExecuted` false — only a
fresh run sets it again. -/
theorem claim6_staleness (cells : List Cell) (i : Nat) (c : Cell) (t t0 : Chars)
    (hfind : findCell cells i = some c) :
    (c.isExecuted = true → c.lastExecutedContent = some t0 → t ≠ t0 →
      (findCell (handleContentChange cells i t) i).map Cell.isExecuted = some false) ∧
    (c.isExecuted = false →
      (findCell (handleContentChange cells i t) i).map Cell.isExecuted = some false) := by
  have hupd : findCell (markCellAsUnexecuted cells i) i =
      (findCell cells i).map
        (fun c => { c with isExecuted := false, lastExecutedContent := none }) := by
    unfold markCellAsUnexecuted
    exact findCell_updCellId cells i _ (fun c => rfl)
  constructor
  · intro hex hlast hne
    have hcheck : checkContentChanged cells i t = true := by
      unfold checkContentChanged
      rw [hfind]
      simp [hlast]
      exact Or.inr (fun h => hne h.symm)
    rw [handleContentChange, if_pos hcheck, hupd, hfind]
    rfl
  · intro hex
    have hcheck : checkContentChanged cells i t = true := by
      unfold checkContentChanged
      rw [hfind]
      simp [hex]
    rw [handleContentChange, if_pos hcheck, hupd, hfind]
    rfl

/-- Concrete instance of `claim6_staleness`: an executed cell edited to a
different text becomes unexecuted, and editing an unexecuted cell back to
the old text leaves it unexecuted. -/
theorem claim6_staleness_witness :
    (findCell (handleContentChange
        [⟨0, .js, none, [], false, true, some "a".toList⟩] 0 "b".toList) 0).map
      Cell.isExecuted = some false ∧
    (findCell (handleContentChange
        [⟨0, .js, none, [], false, false, none⟩] 0 "a".toList) 0).map
      Cell.isExecuted = some false := by
  constructor
  · exact (claim6_staleness [⟨0, .js, none, [], false, true, some "a".toList⟩] 0
      ⟨0, .js, none, [], false, true, some "a".toList⟩ "b".toList "a".toList
      (by rfl)).1 rfl rfl (by decide)
  · exact (claim6_staleness [⟨0, .js, none, [], false, false, none⟩] 0
      ⟨0, .js, none, [], false, false, none⟩ "a".toList "a".toList
      (by rfl)).2 rfl

/-! ### C10 — clipboard operations degrade to no-ops -/

/-- C10: with no focusable cell, `cutCell` and `copyCell` leave the
clipboard and the cell store unchanged; with an empty clipboard,
`pasteCell` leaves the cell store unchanged. -/
theorem claim10_clipboard_noop {V : Type} (st : NotebookState V) :
    ((getFocusedCell st).1 = none →
      (cutCell st).cells = st.cells ∧ (cutCell st).clipboard = st.clipboard ∧
      (copyCell st).cells = st.cells ∧ (copyCell st).clipboard = st.clipboard) ∧
    (st.clipboard = none → (pasteCell st).cells = st.cells) := by
  constructor
  · intro h
    have hpair : getFocusedCell st = (none, (getFocusedCell st).2) := by
      rw [← h]
    have hkeep := getFocusedCell_keeps st
    have hcut : cutCell st = (getFocusedCell st).2 := by
      unfold cutCell
      rw [hpair]
    have hcopy : copyCell st = (getFocusedCell st).2 := by
      unfold copyCell
      rw [hpair]
    rw [hcut, hcopy]
    exact ⟨hkeep.1, hkeep.2.1, hkeep.1, hkeep.2.1⟩
  · intro h
    unfold pasteCell
    rw [h]

/-- Concrete instance of `claim10_clipboard_noop` on the empty store
(no focusable cell, empty clipboard). -/
theorem claim10_clipboard_noop_witness :
    (cutCell (⟨0, [], [], none, none, []⟩ : NotebookState Nat)).cells = [] ∧
    (pasteCell (⟨0, [], [], none, none, []⟩ : NotebookState Nat)).cells = [] := by
  refine ⟨((claim10_clipboard_noop (⟨0, [], [], none, none, []⟩ : NotebookState Nat)).1
    (by rfl)).1, (claim10_clipboard_noop (⟨0, [], [], none, none, []⟩ :
      NotebookState Nat)).2 rfl⟩

/-! ### C2 — execution failure handling -/

/-- Concrete state used by the C2 counterexample: one code cell with an
editor. -/
def stateC2 : NotebookState Nat :=
  ⟨1, [⟨0, .js, none, [], false, false, none⟩], [(0, ⟨"bad code (".toList, false⟩)],
   none, none, []⟩

/-- Script semantics where constructing the script from the text throws
(e.g. the text is not a valid script body). -/
def oracleC2 : Oracle Nat := fun _ _ => .constructFailure "ctor failed".toList

/-- C2 counterexample: when `new AsyncFunction(...)` itself throws — the
construction sits outside the engine's `try`/`catch` — the exception
propagates out of the run, no `Error` output is recorded, and the cell is
not marked executed, contrary to the claim that a failure to construct
the script is caught and converted to an `Error` output. -/
theorem claim2_counterexample :
    (runCell stateC2 oracleC2 0).2 = some "ctor failed".toList ∧
    (runCell stateC2 oracleC2 0).1.cells.map Cell.outputs = [[]] ∧
    (runCell stateC2 oracleC2 0).1.cells.map Cell.isExecuted = [false] := by
  decide

/-- C2 amended: for every run of a code cell whose script construction
succeeds, the run propagates no exception, the cell ends marked executed
with `lastExecutedContent` the text just run, and a failure during
execution is converted into a trailing `Error` output (carrying the
failure's description, prefixed with `Uncaught:` when it reached the
engine's outer catch); a failure to construct the script, by contrast,
escapes the run (see the counterexample). -/
theorem claim2_execution_errors {V : Type} (st : NotebookState V) (oracle : Oracle V)
    (i : Nat) (c : Cell) (ed : EditorRec)
    (hc : findCell st.cells i = some c) (hty : c.ctype = .js)
    (hed : findEditor st.editors i = some ed)
    (hok : ∀ m, oracle ed.text st.scope ≠ .constructFailure m) :
    (runCell st oracle i).2 = none ∧
    ∃ c2, findCell (runCell st oracle i).1.cells i = some c2 ∧
      c2.isExecuted = true ∧ c2.lastExecutedContent = some ed.text ∧
      (∀ σ outs, oracle ed.text st.scope = .ok σ outs →
        c2.outputs = outs ∧ (runCell st oracle i).1.scope = σ) ∧
      (∀ σ outs d, oracle ed.text st.scope = .innerCaught σ outs d →
        c2.outputs = outs ++ [.error d] ∧ (runCell st oracle i).1.scope = σ) ∧
      (∀ σ outs m, oracle ed.text st.scope = .escaped σ outs m →
        c2.outputs = outs ++ [.error ("Uncaught: ".toList ++ m)] ∧
          (runCell st oracle i).1.scope = σ) := by
  rcases hres : oracle ed.text st.scope with ⟨σ, outs⟩ | ⟨σ, outs, d⟩ | ⟨σ, outs, m⟩ | m
  · have hrun : runCell st oracle i =
        ({ st with
            cells := updCellId st.cells i (fun c =>
              { c with outputs := outs,
                       isOutputVisible := if outs.isEmpty then c.isOutputVisible else true,
                       isExecuted := true, lastExecutedContent := some ed.text }),
            scope := σ }, none) := by
      unfold runCell
      rw [hc, hed]
      simp only [hty, hres]
    rw [hrun]
    refine ⟨rfl, ?_⟩
    simp only
    rw [findCell_updCellId st.cells i (fun c =>
      { c with outputs := outs,
               isOutputVisible := if outs.isEmpty then c.isOutputVisible else true,
               isExecuted := true, lastExecutedContent := some ed.text }) (fun c => rfl), hc]
    refine ⟨_, rfl, rfl, rfl, ?_, ?_, ?_⟩
    · intro σ2 o2 h2
      cases h2
      exact ⟨rfl, rfl⟩
    · intro σ2 o2 d2 h2
      cases h2
    · intro σ2 o2 m2 h2
      cases h2
  · have hrun : runCell st oracle i =
        ({ st with
            cells := updCellId st.cells i (fun c =>
              { c with outputs := outs ++ [.error d],
                       isOutputVisible := true,
                       isExecuted := true, lastExecutedContent := some ed.text }),
            scope := σ }, none) := by
      unfold runCell
      rw [hc, hed]
      simp only [hty, hres]
    rw [hrun]
    refine ⟨rfl, ?_⟩
    simp only
    rw [findCell_updCellId st.cells i (fun c =>
      { c with outputs := outs ++ [.error d],
               isOutputVisible := true,
               isExecuted := true, lastExecutedContent := some ed.text }) (fun c => rfl), hc]
    refine ⟨_, rfl, rfl, rfl, ?_, ?_, ?_⟩
    · intro σ2 o2 h2
      cases h2
    · intro σ2 o2 d2 h2
      cases h2
      exact ⟨rfl, rfl⟩
    · intro σ2 o2 m2 h2
      cases h2
  · have hrun : runCell st oracle i =
        ({ st with
            cells := updCellId st.cells i (fun c =>
              { c with outputs := outs ++ [.error ("Uncaught: ".toList ++ m)],
                       isOutputVisible := true,
                       isExecuted := true, lastExecutedContent := some ed.text }),
            scope := σ }, none) := by
      unfold runCell
      rw [hc, hed]
      simp only [hty, hres]
    rw [hrun]
    refine ⟨rfl, ?_⟩
    simp only
    rw [findCell_updCellId st.cells i (fun c =>
      { c with outputs := outs ++ [.error ("Uncaught: ".toList ++ m)],
               isOutputVisible := true,
               isExecuted := true, lastExecutedContent := some ed.text }) (fun c => rfl), hc]
    refine ⟨_, rfl, rfl, rfl, ?_, ?_, ?_⟩
    · intro σ2 o2 h2
      cases h2
    · intro σ2 o2 d2 h2
      cases h2
    · intro σ2 o2 m2 h2
      cases h2
      exact ⟨rfl, rfl⟩
  · exact absurd hres (hok m)

/-- Script semantics for the C2 witness: the run fails inside the body
wrapper after logging once. -/
def oracleC2w : Oracle Nat := fun _ σ => .innerCaught σ [.log "step".toList] "boom".toList

/-- Concrete instance of `claim2_execution_errors`: an execution failure
caught by the body wrapper yields no escaping exception, a trailing
`Error` output, and the executed marker. -/
theorem claim2_execution_errors_witness :
    (runCell stateC2 oracleC2w 0).2 = none ∧
    ∃ c2, findCell (runCell stateC2 oracleC2w 0).1.cells 0 = some c2 ∧
      c2.isExecuted = true ∧ c2.outputs = [.log "step".toList, .error "boom".toList] := by
  have h := claim2_execution_errors stateC2 oracleC2w 0
    ⟨0, .js, none, [], false, false, none⟩ ⟨"bad code (".toList, false⟩
    (by rfl) rfl (by rfl) (fun m hm => by simp [oracleC2w] at hm)
  refine ⟨h.1, ?_⟩
  obtain ⟨c2, hfind, hex, hlast, _, hinner, _⟩ := h.2
  exact ⟨c2, hfind, hex, (hinner _ _ _ rfl).1⟩

/-! ### C3 — persistent scope across runs and restart -/

/-- Canonical script that reads a scope key: it logs `present` or
`absent` depending on whether the key is bound in the scope the engine
passes to the run. -/
def readerOracle {V : Type} (n : Chars) : Oracle V := fun _ σ =>
  .ok σ [.log (if (lookupScope σ n).isSome then "present".toList else "absent".toList)]

/-- C3: a run that stores a value under a name in the persistent scope
makes a subsequent run of a second (key-reading) cell observe that value;
after `restartKernel`, the same run of the second cell observes the key
as absent. -/
theorem claim3_scope_persistence {V : Type} (st : NotebookState V) (oracle : Oracle V)
    (i1 i2 : Nat) (c1 c2 : Cell) (ed1 ed2 : EditorRec) (n : Chars) (v : V)
    (σ2 : List (Chars × V)) (outs : List Output)
    (hc1 : findCell st.cells i1 = some c1) (hty1 : c1.ctype = .js)
    (hed1 : findEditor st.editors i1 = some ed1)
    (horacle : oracle ed1.text st.scope = .ok σ2 outs)
    (hstore : lookupScope σ2 n = some v)
    (hc2 : findCell (runCell st oracle i1).1.cells i2 = some c2)
    (hty2 : c2.ctype = .js)
    (hed2 : findEditor st.editors i2 = some ed2) :
    lookupScope (runCell st oracle i1).1.scope n = some v ∧
    (∃ c2r, findCell (runCell (runCell st oracle i1).1 (readerOracle n) i2).1.cells i2
        = some c2r ∧ c2r.outputs = [.log "present".toList]) ∧
    lookupScope (restartKernel (runCell st oracle i1).1).scope n = none ∧
    (∃ c2r, findCell
        (runCell (restartKernel (runCell st oracle i1).1) (readerOracle n) i2).1.cells i2
        = some c2r ∧ c2r.outputs = [.log "absent".toList]) := by
  set st1 := (runCell st oracle i1).1 with hst1
  have hscope1 : st1.scope = σ2 := by
    rw [hst1]
    unfold runCell
    rw [hc1, hed1]
    simp only [hty1, horacle]
  have heds1 : st1.editors = st.editors := runCell_editors st oracle i1
  refine ⟨by rw [hscope1]; exact hstore, ?_, rfl, ?_⟩
  · have hread : readerOracle n ed2.text st1.scope =
        .ok st1.scope [.log "present".toList] := by
      unfold readerOracle
      rw [hscope1, hstore]
      rfl
    have hrun2 : runCell st1 (readerOracle n) i2 =
        ({ st1 with
            cells := updCellId st1.cells i2 (fun c =>
              { c with outputs := [.log "present".toList],
                       isOutputVisible := true,
                       isExecuted := true, lastExecutedContent := some ed2.text }),
            scope := st1.scope }, none) := by
      unfold runCell
      rw [hc2, heds1, hed2]
      simp only [hty2, hread]
      rfl
    rw [hrun2]
    simp only
    rw [findCell_updCellId st1.cells i2 (fun c =>
      { c with outputs := [.log "present".toList],
               isOutputVisible := true,
               isExecuted := true, lastExecutedContent := some ed2.text }) (fun c => rfl), hc2]
    exact ⟨_, rfl, rfl⟩
  · set st2 := restartKernel st1 with hst2
    have heds2 : st2.editors = st.editors := by rw [hst2]; exact heds1
    have hscope2 : st2.scope = [] := rfl
    have hc2r : findCell st2.cells i2 = some { c2 with outputs := [] } := by
      rw [hst2]
      unfold restartKernel
      simp only
      rw [findCell_map st1.cells i2
        (fun c => if c.ctype = .js then { c with outputs := [] } else c)
        (fun c => by by_cases h : c.ctype = .js <;> simp [h]), hc2]
      simp [hty2]
    have hread : readerOracle n ed2.text st2.scope =
        .ok st2.scope [.log "absent".toList] := by
      unfold readerOracle
      rw [hscope2]
      rfl
    have hrun2 : runCell st2 (readerOracle n) i2 =
        ({ st2 with
            cells := updCellId st2.cells i2 (fun c =>
              { c with outputs := [.log "absent".toList],
                       isOutputVisible := true,
                       isExecuted := true, lastExecutedContent := some ed2.text }),
            scope := st2.scope }, none) := by
      unfold runCell
      rw [hc2r, heds2, hed2]
      simp only [hty2, hread]
      rfl
    rw [hrun2]
    simp only
    rw [findCell_updCellId st2.cells i2 (fun c =>
      { c with outputs := [.log "absent".toList],
               isOutputVisible := true,
               isExecuted := true, lastExecutedContent := some ed2.text }) (fun c => rfl), hc2r]
    exact ⟨_, rfl, rfl⟩

/-- Concrete two-cell state for the C3 witness. -/
def stateC3 : NotebookState Nat :=
  ⟨2, [⟨0, .js, none, [], false, false, none⟩, ⟨1, .js, none, [], false, false, none⟩],
   [(0, ⟨"persistentScope.x = 5".toList, false⟩), (1, ⟨"console.log(persistentScope.x)".toList, false⟩)],
   none, none, []⟩

/-- Script semantics for the C3 witness: the first cell's script stores
`5` under `x`. -/
def oracleC3 : Oracle Nat := fun _ σ => .ok (("x".toList, 5) :: σ) []

/-- Concrete instance of `claim3_scope_persistence`. -/
theorem claim3_scope_persistence_witness :
    lookupScope (runCell stateC3 oracleC3 0).1.scope "x".toList = some 5 ∧
    (∃ c2r, findCell (runCell (runCell stateC3 oracleC3 0).1
        (readerOracle "x".toList) 1).1.cells 1 = some c2r ∧
      c2r.outputs = [.log "present".toList]) ∧
    lookupScope (restartKernel (runCell stateC3 oracleC3 0).1).scope "x".toList = none ∧
    (∃ c2r, findCell (runCell (restartKernel (runCell stateC3 oracleC3 0).1)
        (readerOracle "x".toList) 1).1.cells 1 = some c2r ∧
      c2r.outputs = [.log "absent".toList]) := by
  exact claim3_scope_persistence stateC3 oracleC3 0 1
    ⟨0, .js, none, [], false, false, none⟩ ⟨1, .js, none, [], false, false, none⟩
    ⟨"persistentScope.x = 5".toList, false⟩ ⟨"console.log(persistentScope.x)".toList, false⟩
    "x".toList 5 (("x".toList, 5) :: []) []
    (by rfl) rfl (by rfl) (by rfl) (by rfl) (by decide) rfl (by rfl)

/-! ### C4 — what restart actually clears -/

/-- Concrete state for the C4 counterexample: an executed code cell with
an output and a bound scope key. -/
def stateC4 : NotebookState Nat :=
  ⟨1, [⟨0, .js, none, [.log "old".toList], true, true, some "x".toList⟩],
   [(0, ⟨"x".toList, false⟩)], none, none, [("n".toList, 5)]⟩

/-- C4 counterexample: `restartKernel` leaves `isExecuted` and
`lastExecutedContent` untouched (the source only clears `outputs` and the
scope), contradicting the claim that every code cell's execution state is
reset. -/
theorem claim4_counterexample :
    (restartKernel stateC4).cells.map Cell.isExecuted = [true] ∧
    (restartKernel stateC4).cells.map Cell.lastExecutedContent = [some "x".toList] ∧
    (restartKernel stateC4).cells.map Cell.outputs = [[]] ∧
    (restartKernel stateC4).scope = [] := by
  decide

/-- C4 amended: restart removes every key from the persistent scope and
clears every code cell's outputs, but leaves every cell's id, kind, mode
(in particular every text cell's rendering mode), execution state and a
text cell's outputs unchanged. -/
theorem claim4_restart {V : Type} (st : NotebookState V) (n : Chars) (j : Nat)
    (cOld : Cell) (hj : st.cells[j]? = some cOld) :
    lookupScope (restartKernel st).scope n = none ∧
    (restartKernel st).cells.length = st.cells.length ∧
    ∃ cNew, (restartKernel st).cells[j]? = some cNew ∧
      cNew.id = cOld.id ∧ cNew.ctype = cOld.ctype ∧ cNew.mode = cOld.mode ∧
      cNew.isExecuted = cOld.isExecuted ∧
      cNew.lastExecutedContent = cOld.lastExecutedContent ∧
      (cOld.ctype = .js → cNew.outputs = []) ∧
      (cOld.ctype = .md → cNew.outputs = cOld.outputs) := by
  refine ⟨rfl, by simp [restartKernel], ?_⟩
  have hget : (restartKernel st).cells[j]? =
      some (if cOld.ctype = .js then { cOld with outputs := [] } else cOld) := by
    unfold restartKernel
    simp only
    rw [List.getElem?_map, hj]
    rfl
  by_cases h : cOld.ctype = .js
  · rw [if_pos h] at hget
    exact ⟨_, hget, rfl, rfl, rfl, rfl, rfl, fun _ => rfl,
      fun hmd => by rw [h] at hmd; cases hmd⟩
  · rw [if_neg h] at hget
    exact ⟨_, hget, rfl, rfl, rfl, rfl, rfl, fun hjs => absurd hjs h, fun _ => rfl⟩

/-- Concrete instance of `claim4_restart`. -/
theorem claim4_restart_witness :
    lookupScope (restartKernel stateC4).scope "n".toList = none ∧
    (restartKernel stateC4).cells.length = stateC4.cells.length ∧
    ∃ cNew, (restartKernel stateC4).cells[0]? = some cNew ∧
      cNew.id = 0 ∧ cNew.ctype = .js ∧ cNew.mode = none ∧
      cNew.isExecuted = true ∧ cNew.lastExecutedContent = some "x".toList ∧
      (CellType.js = CellType.js → cNew.outputs = []) ∧
      (CellType.js = CellType.md → cNew.outputs = [.log "old".toList]) := by
  exact claim4_restart stateC4 "n".toList 0
    ⟨0, .js, none, [.log "old".toList], true, true, some "x".toList⟩ (by rfl)

/-! ### C9 — focused-cell lookup -/

/-- Concrete state for the C9 counterexample: the recorded focus id
points at a deleted cell while the store is nonempty. -/
def stateC9 : NotebookState Nat :=
  ⟨1, [⟨0, .js, none, [], false, false, none⟩], [(0, ⟨[], false⟩)], none, some 99, []⟩

/-- C9 counterexample: with a stale recorded focus id the lookup returns
no cell although the store is nonempty — contradicting both the fallback
to the first cell and the claim that no cell is returned exactly when the
store is empty. -/
theorem claim9_counterexample :
    (getFocusedCell stateC9).1 = none ∧ stateC9.cells ≠ [] := by
  decide

/-- C9 amended: the lookup returns the recorded most-recently-focused
cell while it still exists, and `none` when the record is stale; with no
record it returns the cell of the first currently focused editor (the id
lookup may again yield `none`); with no record and no focused editor it
returns the first cell of a nonempty store, and `none` on the empty
store. -/
theorem claim9_focus {V : Type} (st : NotebookState V) :
    (∀ i, st.focusedCellId = some i → (getFocusedCell st).1 = findCell st.cells i) ∧
    (∀ k, st.focusedCellId = none → findFocusedEditor st.editors = some k →
      (getFocusedCell st).1 = findCell st.cells k) ∧
    (∀ c rest, st.focusedCellId = none → findFocusedEditor st.editors = none →
      st.cells = c :: rest → (getFocusedCell st).1 = some c) ∧
    (st.focusedCellId = none → findFocusedEditor st.editors = none → st.cells = [] →
      (getFocusedCell st).1 = none) := by
  refine ⟨?_, ?_, ?_, ?_⟩
  · intro i hi
    unfold getFocusedCell
    rw [hi]
  · intro k hfoc hed
    unfold getFocusedCell
    rw [hfoc, hed]
  · intro c rest hfoc hed hcells
    unfold getFocusedCell
    rw [hfoc, hed, hcells]
  · intro hfoc hed hcells
    unfold getFocusedCell
    rw [hfoc, hed, hcells]

/-- Concrete instance of `claim9_focus` covering the stale-record case
and the first-cell fallback. -/
theorem claim9_focus_witness :
    (getFocusedCell stateC9).1 = findCell stateC9.cells 99 ∧
    (getFocusedCell (⟨1, [⟨0, .js, none, [], false, false, none⟩],
      [(0, ⟨[], false⟩)], none, none, []⟩ : NotebookState Nat)).1 =
      some ⟨0, .js, none, [], false, false, none⟩ := by
  constructor
  · exact (claim9_focus stateC9).1 99 rfl
  · exact (claim9_focus (⟨1, [⟨0, .js, none, [], false, false, none⟩],
      [(0, ⟨[], false⟩)], none, none, []⟩ : NotebookState Nat)).2.2.1
      ⟨0, .js, none, [], false, false, none⟩ [] rfl rfl rfl

/-! ### List lemmas for the store operations -/

lemma length_spliceInsert {α : Type} (l : List α) (i : Nat) (a : α) :
    (spliceInsert l i a).length = l.length + 1 := by
  simp [spliceInsert]
  omega

lemma perm_spliceInsert {α : Type} (l : List α) (i : Nat) (a : α) :
    List.Perm (spliceInsert l i a) (a :: l) := by
  have h1 : List.Perm (l.take i ++ a :: l.drop i) (a :: (l.take i ++ l.drop i)) :=
    List.perm_middle
  rw [List.take_append_drop] at h1
  exact h1

lemma perm_eraseIdx {α : Type} :
    ∀ (l : List α) (i : Nat) (a : α), l[i]? = some a → List.Perm l (a :: l.eraseIdx i)
  | [], i, a, h => by simp at h
  | b :: tl, 0, a, h => by
    simp at h
    subst h
    exact List.Perm.refl _
  | b :: tl, i + 1, a, h => by
    simp at h
    exact ((perm_eraseIdx tl i a h).cons b).trans (List.Perm.swap a b _)

lemma map_eraseIdx {α β : Type} (f : α → β) :
    ∀ (l : List α) (i : Nat), (l.map f).eraseIdx i = (l.eraseIdx i).map f
  | [], _ => by simp
  | _ :: _, 0 => by simp [List.eraseIdx]
  | a :: tl, i + 1 => by simp [List.eraseIdx, map_eraseIdx f tl i]

lemma map_spliceInsert {α β : Type} (f : α → β) (l : List α) (i : Nat) (a : α) :
    spliceInsert (l.map f) i (f a) = (spliceInsert l i a).map f := by
  simp [spliceInsert, List.map_take, List.map_drop]

lemma filterMap_id_map_some {α : Type} (l : List α) :
    (l.map some).filterMap id = l := by
  induction l with
  | nil => rfl
  | cons a tl ih => simp [ih]

lemma findIdx?_lt_length_aux {α : Type} (p : α → Bool) :
    ∀ (l : List α) (s i : Nat), List.findIdx? p l s = some i → i < s + l.length
  | [], s, i, h => by simp [List.findIdx?] at h
  | a :: tl, s, i, h => by
    rw [List.findIdx?_cons] at h
    by_cases hp : p a
    · rw [if_pos hp] at h
      cases h
      simp only [List.length_cons]
      omega
    · rw [if_neg hp] at h
      have := findIdx?_lt_length_aux p tl (s + 1) i h
      simp only [List.length_cons]
      omega

lemma findIdx?_lt_length {α : Type} (p : α → Bool) (l : List α) (i : Nat)
    (h : l.findIdx? p = some i) : i < l.length := by
  have := findIdx?_lt_length_aux p l 0 i h
  omega

/-- The raw `onEnd` splice pair for an in-range old index: remove the
cell and reinsert it at the new index (clamped), all other cells keeping
their relative order. -/
lemma sortableOnEnd_spec (cells : List Cell) (o n : Nat) (h : o < cells.length)
    (hne : o ≠ n) :
    sortableOnEnd (cells.map some) o n =
      ((cells.eraseIdx o).take n ++ cells.get ⟨o, h⟩ :: (cells.eraseIdx o).drop n).map some := by
  unfold sortableOnEnd
  rw [if_neg hne]
  have h1 : (cells.map some)[o]? = some (some (cells.get ⟨o, h⟩)) := by
    rw [List.getElem?_map, List.getElem?_eq_getElem h]
    rfl
  rw [h1, map_eraseIdx]
  show spliceInsert ((cells.eraseIdx o).map some) n (some (cells.get ⟨o, h⟩)) = _
  rw [map_spliceInsert]
  rfl

lemma reorderCells_perm (cells : List Cell) (o n : Nat)
    (h : o = n ∨ o < cells.length) : List.Perm (reorderCells cells o n) cells := by
  by_cases he : o = n
  · unfold reorderCells sortableOnEnd
    rw [if_pos he, filterMap_id_map_some]
  · have ho : o < cells.length := h.resolve_left he
    unfold reorderCells
    rw [sortableOnEnd_spec cells o n ho he, filterMap_id_map_some]
    have hma : cells[o]? = some (cells.get ⟨o, ho⟩) := by
      rw [List.getElem?_eq_getElem ho]
      rfl
    have h1 : List.Perm
        ((cells.eraseIdx o).take n ++ cells.get ⟨o, ho⟩ :: (cells.eraseIdx o).drop n)
        (cells.get ⟨o, ho⟩ :: ((cells.eraseIdx o).take n ++ (cells.eraseIdx o).drop n)) :=
      List.perm_middle
    rw [List.take_append_drop] at h1
    exact h1.trans (perm_eraseIdx cells o _ hma).symm

/-! ### C8 — drag reorder -/

/-- Concrete cells used across the reorder counterexamples. -/
def cellA : Cell := ⟨0, .js, none, [], false, false, none⟩

/-- A second concrete cell. -/
def cellB : Cell := ⟨1, .md, some .edit, [], false, false, none⟩

/-- C8 counterexample: out-of-range indices are not checked.  An
out-of-range old index makes the splice pair insert an `undefined` entry
(not a no-op, and corrupting the store); an in-range old index with an
out-of-range new index moves the cell to the end (also not a no-op). -/
theorem claim8_counterexample :
    sortableOnEnd [some cellA] 1 0 = [none, some cellA] ∧
    sortableOnEnd [some cellA] 1 0 ≠ [some cellA] ∧
    sortableOnEnd [some cellA, some cellB] 0 5 = [some cellB, some cellA] := by
  decide

/-- C8 amended: the handler is a no-op when the indices are equal; when
the old index addresses an existing cell and differs from the new index,
it removes that cell and reinserts it at the new index (clamped to the
end when past it), preserving the relative order of all other cells;
out-of-range old indices are not checked and corrupt the array (see the
counterexample). -/
theorem claim8_reorder (cells : List Cell) (oldIdx newIdx : Nat) :
    (oldIdx = newIdx → sortableOnEnd (cells.map some) oldIdx newIdx = cells.map some) ∧
    (∀ (h : oldIdx < cells.length), oldIdx ≠ newIdx →
      sortableOnEnd (cells.map some) oldIdx newIdx =
        ((cells.eraseIdx oldIdx).take newIdx ++
          cells.get ⟨oldIdx, h⟩ :: (cells.eraseIdx oldIdx).drop newIdx).map some) := by
  constructor
  · intro h
    unfold sortableOnEnd
    rw [if_pos h]
  · intro h hne
    exact sortableOnEnd_spec cells oldIdx newIdx h hne

/-- Concrete instance of `claim8_reorder`: moving the first of two cells
one slot down swaps them. -/
theorem claim8_reorder_witness :
    sortableOnEnd ([cellA, cellB].map some) 0 1 = [some cellB, some cellA] := by
  have h := (claim8_reorder [cellA, cellB] 0 1).2 (by decide) (by decide)
  rw [h]
  rfl

/-! ### C5 — store order invariant -/

lemma validStore_iff {V : Type} (st : NotebookState V) :
    validStore st = true ↔
      (st.cells.map Cell.id).Nodup ∧ ∀ c ∈ st.cells, c.id < st.counter := by
  simp [validStore, List.all_eq_true]

lemma validStore_of_perm {V : Type} (st st' : NotebookState V)
    (hperm : List.Perm st'.cells st.cells) (hcounter : st'.counter = st.counter)
    (hv : validStore st = true) : validStore st' = true := by
  rw [validStore_iff] at hv ⊢
  refine ⟨((hperm.map Cell.id).nodup_iff).2 hv.1, ?_⟩
  intro c hc
  rw [hcounter]
  exact hv.2 c (hperm.subset hc)

lemma moveCell_eq {V : Type} (st : NotebookState V) (i : Nat) (d : Dir) :
    ∃ cls, moveCell st i d = { st with cells := cls } ∧ List.Perm cls st.cells := by
  unfold moveCell
  split
  · exact ⟨st.cells, rfl, List.Perm.refl _⟩
  next idx hidx =>
    split
    · exact ⟨st.cells, rfl, List.Perm.refl _⟩
    next c hget =>
      have hp : List.Perm st.cells (c :: st.cells.eraseIdx idx) :=
        perm_eraseIdx _ _ _ hget
      split
      · split
        · exact ⟨st.cells, rfl, List.Perm.refl _⟩
        · exact ⟨_, rfl, (perm_spliceInsert _ _ _).trans hp.symm⟩
      · split
        · exact ⟨st.cells, rfl, List.Perm.refl _⟩
        · exact ⟨_, rfl, (perm_spliceInsert _ _ _).trans hp.symm⟩

lemma validStore_addCell {V : Type} (st : NotebookState V) (code : Chars)
    (ty : CellType) (pre : Bool) (outs : List Output) (idx : Option Nat)
    (hv : validStore st = true) :
    validStore (addCell st code ty pre outs idx) = true := by
  rw [validStore_iff] at hv ⊢
  have hperm : List.Perm (addCell st code ty pre outs idx).cells
      (mkCell st.counter ty pre outs :: st.cells) := by
    unfold addCell
    rcases idx with _ | i
    · exact List.perm_append_singleton _ _
    · exact perm_spliceInsert _ _ _
  have hfresh : ∀ c ∈ st.cells, c.id ≠ st.counter := by
    intro c hc
    have := hv.2 c hc
    omega
  constructor
  · refine ((hperm.map Cell.id).nodup_iff).2 ?_
    rw [List.map_cons, List.nodup_cons]
    refine ⟨?_, hv.1⟩
    intro hmem
    obtain ⟨c, hc, hcid⟩ := List.mem_map.1 hmem
    exact hfresh c hc ((by simpa [mkCell] using hcid : c.id = st.counter))
  · intro c hc
    have hc2 := hperm.subset hc
    have hcount : (addCell st code ty pre outs idx).counter = st.counter + 1 := rfl
    rw [hcount]
    rcases List.mem_cons.1 hc2 with hceq | hcmem
    · subst hceq
      show (mkCell st.counter ty pre outs).id < st.counter + 1
      simp [mkCell]
    · have := hv.2 c hcmem
      omega

lemma validStore_deleteCell {V : Type} (st : NotebookState V) (i : Nat)
    (hv : validStore st = true) : validStore (deleteCell st i) = true := by
  rw [validStore_iff] at hv ⊢
  have hsub : List.Sublist (deleteCell st i).cells st.cells := by
    show List.Sublist
      (match st.cells.findIdx? (fun c => decide (c.id = i)) with
       | some idx => st.cells.eraseIdx idx
       | none => st.cells) st.cells
    split
    · exact List.eraseIdx_sublist _ _
    · exact List.Sublist.refl _
  exact ⟨hv.1.sublist (hsub.map Cell.id), fun c hc => hv.2 c (hsub.subset hc)⟩

lemma length_deleteCell {V : Type} (st : NotebookState V) (i : Nat) :
    (deleteCell st i).cells.length +
      (if (st.cells.findIdx? (fun c => decide (c.id = i))).isSome then 1 else 0) =
    st.cells.length := by
  unfold deleteCell
  rcases hidx : st.cells.findIdx? (fun c => decide (c.id = i)) with _ | idx
  · simp [hidx]
  · have hlt := findIdx?_lt_length _ _ _ hidx
    simp only [hidx, Option.isSome_some, if_pos]
    rw [List.length_eraseIdx, if_pos hlt]
    omega

/-- C5 counterexample: starting from a singleton valid store (one cell
created, none deleted), a single drag-reorder event with an out-of-range
old index leaves the raw array with two entries — its length no longer
equals creations minus deletions, because the splice pair inserted an
`undefined` entry. -/
theorem claim5_counterexample :
    sortableOnEnd [some cellA] 1 0 = [none, some cellA] ∧
    (sortableOnEnd [some cellA] 1 0).length = 2 := by
  decide

/-- C5 amended: after any finite sequence of insert, delete, move, and
reorder operations whose reorder events address an existing cell (as the
drag gesture guarantees; the source performs no range check, see the
counterexample), a valid store stays valid — in particular it contains no
two cells with the same id — and its length equals the starting length
plus cells created minus cells actually deleted. -/
theorem claim5_store_invariant {V : Type} (st : NotebookState V) (ops : List StoreOp)
    (hv : validStore st = true) (ht : okTrace st ops = true) :
    validStore (applyOps st ops) = true ∧
    (applyOps st ops).cells.length + delCount st ops = st.cells.length + insCount ops := by
  induction ops generalizing st with
  | nil => exact ⟨hv, by simp [applyOps, delCount, insCount]⟩
  | cons op rest ih =>
    obtain ⟨hop, hrest⟩ := Bool.and_eq_true_iff.1 ht
    have happly : applyOps st (op :: rest) = applyOps (applyOp st op) rest := rfl
    rcases op with ⟨code, ty, pre, outs, idx⟩ | i | ⟨i, d⟩ | ⟨o, n⟩
    · have hv' : validStore (applyOp st (.ins code ty pre outs idx)) = true :=
        validStore_addCell st code ty pre outs idx hv
      obtain ⟨ihv, ihlen⟩ := ih _ hv' hrest
      refine ⟨ihv, ?_⟩
      have hdel : delCount st (.ins code ty pre outs idx :: rest) =
          0 + delCount (applyOp st (.ins code ty pre outs idx)) rest := rfl
      have hins : insCount (.ins code ty pre outs idx :: rest) = insCount rest + 1 := rfl
      have hlen : (applyOp st (.ins code ty pre outs idx)).cells.length =
          st.cells.length + 1 := by
        show (addCell st code ty pre outs idx).cells.length = st.cells.length + 1
        unfold addCell
        rcases idx with _ | j
        · simp
        · exact length_spliceInsert _ _ _
      rw [happly, hdel, hins]
      omega
    · have hv' : validStore (applyOp st (.del i)) = true := validStore_deleteCell st i hv
      obtain ⟨ihv, ihlen⟩ := ih _ hv' hrest
      refine ⟨ihv, ?_⟩
      have hdel : delCount st (.del i :: rest) =
          (if (st.cells.findIdx? (fun c => decide (c.id = i))).isSome then 1 else 0) +
            delCount (applyOp st (.del i)) rest := rfl
      have hins : insCount (.del i :: rest) = insCount rest := rfl
      have hlen := length_deleteCell st i
      have hlen2 : (applyOp st (.del i)).cells.length =
          (deleteCell st i).cells.length := rfl
      rw [happly, hdel, hins]
      omega
    · obtain ⟨cls, hmv, hperm⟩ := moveCell_eq st i d
      have hv' : validStore (applyOp st (.move i d)) = true := by
        show validStore (moveCell st i d) = true
        rw [hmv]
        exact validStore_of_perm st { st with cells := cls } hperm rfl hv
      obtain ⟨ihv, ihlen⟩ := ih _ hv' hrest
      refine ⟨ihv, ?_⟩
      have hdel : delCount st (.move i d :: rest) =
          0 + delCount (applyOp st (.move i d)) rest := rfl
      have hins : insCount (.move i d :: rest) = insCount rest := rfl
      have hlen : (applyOp st (.move i d)).cells.length = st.cells.length := by
        show (moveCell st i d).cells.length = st.cells.length
        rw [hmv]
        exact hperm.length_eq
      rw [happly, hdel, hins]
      omega
    · have hperm : List.Perm (reorderCells st.cells o n) st.cells := by
        refine reorderCells_perm st.cells o n ?_
        rcases Bool.or_eq_true_iff.1 hop with h | h
        · exact Or.inl (of_decide_eq_true h)
        · exact Or.inr (of_decide_eq_true h)
      have hv' : validStore (applyOp st (.reorder o n)) = true :=
        validStore_of_perm st { st with cells := reorderCells st.cells o n } hperm rfl hv
      obtain ⟨ihv, ihlen⟩ := ih _ hv' hrest
      refine ⟨ihv, ?_⟩
      have hdel : delCount st (.reorder o n :: rest) =
          0 + delCount (applyOp st (.reorder o n)) rest := rfl
      have hins : insCount (.reorder o n :: rest) = insCount rest := rfl
      have hlen : (applyOp st (.reorder o n)).cells.length = st.cells.length :=
        hperm.length_eq
      rw [happly, hdel, hins]
      omega

/-- Concrete instance of `claim5_store_invariant`: from the empty store,
two inserts, one swap-reorder, and one delete leave one cell and a valid
store. -/
theorem claim5_store_invariant_witness :
    validStore (applyOps (⟨0, [], [], none, none, []⟩ : NotebookState Nat)
      [.ins [] .js false [] none, .ins [] .md false [] none,
       .reorder 0 1, .del 0]) = true ∧
    (applyOps (⟨0, [], [], none, none, []⟩ : NotebookState Nat)
      [.ins [] .js false [] none, .ins [] .md false [] none,
       .reorder 0 1, .del 0]).cells.length +
      delCount (⟨0, [], [], none, none, []⟩ : NotebookState Nat)
        [.ins [] .js false [] none, .ins [] .md false [] none,
         .reorder 0 1, .del 0] =
      (⟨0, [], [], none, none, []⟩ : NotebookState Nat).cells.length +
        insCount [.ins ([] : Chars) .js false [] none, .ins [] .md false [] none,
          .reorder 0 1, .del 0] := by
  exact claim5_store_invariant (⟨0, [], [], none, none, []⟩ : NotebookState Nat)
    [.ins [] .js false [] none, .ins [] .md false [] none, .reorder 0 1, .del 0]
    (by decide) (by decide)

/-! ### C7 — no blank cells or outputs from parsing -/

/-- Whether a text contains at least one non-whitespace character (i.e.
is neither empty nor all-whitespace). -/
def nonBlank (s : Chars) : Bool := s.any (fun ch => !wsChar ch)

lemma dropWhile_head_false {α : Type} (p : α → Bool) :
    ∀ (l : List α) (c : α) (cs : List α), l.dropWhile p = c :: cs → p c = false
  | [], c, cs, h => by simp at h
  | a :: tl, c, cs, h => by
    rw [List.dropWhile_cons] at h
    by_cases hp : p a
    · rw [if_pos hp] at h
      exact dropWhile_head_false p tl c cs h
    · rw [if_neg hp] at h
      cases h
      simpa using hp

lemma exists_append_dropWhile {α : Type} (p : α → Bool) (l : List α) :
    ∃ t, l = t ++ l.dropWhile p := by
  induction l with
  | nil => exact ⟨[], rfl⟩
  | cons a tl ih =>
    rw [List.dropWhile_cons]
    by_cases hp : p a
    · rw [if_pos hp]
      obtain ⟨t, ht⟩ := ih
      exact ⟨a :: t, by rw [List.cons_append, ← ht]⟩
    · rw [if_neg hp]
      exact ⟨[], rfl⟩

lemma trimRight_take (u : Chars) : ∃ k, trimRight u = u.take k := by
  obtain ⟨t, ht⟩ := exists_append_dropWhile wsChar u.reverse
  have hu : u = (u.reverse.dropWhile wsChar).reverse ++ t.reverse := by
    have h2 := congrArg List.reverse ht
    rwa [List.reverse_reverse, List.reverse_append] at h2
  refine ⟨(u.reverse.dropWhile wsChar).reverse.length, ?_⟩
  show (u.reverse.dropWhile wsChar).reverse = _
  calc (u.reverse.dropWhile wsChar).reverse
      = ((u.reverse.dropWhile wsChar).reverse ++ t.reverse).take
          (u.reverse.dropWhile wsChar).reverse.length := (List.take_left _ _).symm
    _ = u.take (u.reverse.dropWhile wsChar).reverse.length := by rw [← hu]

/-- A nonempty trimmed text starts with a non-whitespace character, so it
is not all-whitespace. -/
lemma trimText_nonBlank (m : Chars) (h : trimText m ≠ []) :
    nonBlank (trimText m) = true := by
  unfold trimText at h ⊢
  obtain ⟨k, hk⟩ := trimRight_take (trimLeft m)
  rw [hk] at h ⊢
  rcases hu : trimLeft m with _ | ⟨c, cs⟩
  · simp at h
    exact absurd hu h.2
  · have hc : wsChar c = false := dropWhile_head_false wsChar m c cs hu
    rcases k with _ | k2
    · simp at h
    · rw [List.take_succ_cons]
      simp [nonBlank, hc]

/-- Cells the parser is allowed to produce: markdown cells are not blank,
and no output is blank. -/
def goodCell (c : ProtoCell) : Prop :=
  (c.ctype = .md → nonBlank c.code = true) ∧
  ∀ o ∈ c.outputs, nonBlank (Output.payload o) = true

lemma goodAcc_addJsCell (st : ParseState) (h : ∀ c ∈ st.acc, goodCell c) :
    ∀ c ∈ (addJsCell st).acc, goodCell c := by
  unfold addJsCell
  split
  · intro c hc
    rcases List.mem_append.1 hc with hc2 | hc2
    · exact h c hc2
    · simp at hc2
      subst hc2
      exact ⟨fun hmd => (nomatch hmd), by simp⟩
  · exact h

lemma goodAcc_addMdCell (st : ParseState) (h : ∀ c ∈ st.acc, goodCell c) :
    ∀ c ∈ (addMdCell st).acc, goodCell c := by
  unfold addMdCell
  split
  next hne =>
    intro c hc
    rcases List.mem_append.1 hc with hc2 | hc2
    · exact h c hc2
    · simp at hc2
      subst hc2
      exact ⟨fun _ => trimText_nonBlank _ hne, by simp⟩
  · exact h

lemma attachRev_good (o : Output) (ho : nonBlank (Output.payload o) = true) :
    ∀ (l : List ProtoCell), (∀ c ∈ l, goodCell c) → ∀ c ∈ attachRev l o, goodCell c
  | [], h, c, hc => by simp [attachRev] at hc
  | b :: rest, h, c, hc => by
    unfold attachRev at hc
    by_cases hb : b.ctype = CellType.js
    · rw [if_pos hb] at hc
      rcases List.mem_cons.1 hc with hceq | hcm
      · subst hceq
        have hgb := h b (List.mem_cons_self b rest)
        refine ⟨fun hmd => hgb.1 hmd, ?_⟩
        intro o2 ho2
        rcases List.mem_append.1 ho2 with h1 | h1
        · exact hgb.2 o2 h1
        · simp at h1
          subst h1
          exact ho
      · exact h c (List.mem_cons_of_mem b hcm)
    · rw [if_neg hb] at hc
      rcases List.mem_cons.1 hc with hceq | hcm
      · rw [hceq]
        exact h b (List.mem_cons_self b rest)
      · exact attachRev_good o ho rest (fun c2 hc2 => h c2 (List.mem_cons_of_mem b hc2)) c hcm

lemma goodAcc_addOutputFlush (st : ParseState) (h : ∀ c ∈ st.acc, goodCell c) :
    ∀ c ∈ (addOutputFlush st).acc, goodCell c := by
  unfold addOutputFlush
  split
  next hcond =>
    intro c hc
    unfold attachToLastJs at hc
    rw [List.mem_reverse] at hc
    exact attachRev_good (.log (trimText st.outputContent))
      (trimText_nonBlank _ hcond.1) st.acc.reverse
      (fun c2 hc2 => h c2 (List.mem_reverse.1 hc2)) c hc
  · exact h

lemma closeAppend_acc (st : ParseState) (l : Chars) :
    (closeAppend st l).acc = st.acc := by
  unfold closeAppend
  split_ifs <;> rfl

lemma goodAcc_closeFlush (st : ParseState) (h : ∀ c ∈ st.acc, goodCell c) :
    ∀ c ∈ (closeFlush st).acc, goodCell c := by
  unfold closeFlush
  split_ifs
  · exact goodAcc_addMdCell st h
  · exact goodAcc_addOutputFlush st h
  · exact h

lemma goodAcc_parseStep (st : ParseState) (line : Chars)
    (h : ∀ c ∈ st.acc, goodCell c) : ∀ c ∈ (parseStep st line).acc, goodCell c := by
  unfold parseStep
  split_ifs
  · exact goodAcc_addOutputFlush _ (goodAcc_addMdCell st h)
  · exact goodAcc_addJsCell st h
  · exact goodAcc_addOutputFlush _ (goodAcc_addJsCell st h)
  · exact goodAcc_addOutputFlush _ (goodAcc_addJsCell st h)
  · exact goodAcc_addMdCell _ (goodAcc_addJsCell st h)
  · apply goodAcc_closeFlush
    rw [closeAppend_acc]
    exact h
  · exact h
  · exact h
  · exact h
  · exact h

lemma goodAcc_foldl (lines : List Chars) : ∀ (st : ParseState),
    (∀ c ∈ st.acc, goodCell c) → ∀ c ∈ (lines.foldl parseStep st).acc, goodCell c := by
  induction lines with
  | nil => intro st h; exact h
  | cons l rest ih => intro st h; exact ih _ (goodAcc_parseStep st l h)

/-- C7 counterexample: a code block consisting of one all-whitespace line
does produce a cell — with empty text — because `addJsCell` tests the
number of collected lines rather than the trimmed content, contradicting
the claim that an empty or all-whitespace accumulation contributes no
cell. -/
theorem claim7_counterexample :
    parseNotebookFile "// [CODE STARTS]\n \n// [CODE ENDS]".toList =
      [⟨.js, [], none, []⟩] := by
  decide

/-- C7 amended: the parser never synthesizes a blank markdown cell or a
blank output: every parsed Text cell's text and every parsed output's
content contains a non-whitespace character.  A code accumulation with
zero lines produces no cell either, but a code block of whitespace-only
lines does produce a code cell with empty text (see the
counterexample). -/
theorem claim7_parser_no_blank (lines : List Chars) :
    ∀ c ∈ parseLinesF lines,
      (c.ctype = .md → nonBlank c.code = true) ∧
      ∀ o ∈ c.outputs, nonBlank (Output.payload o) = true := by
  have hinit : ∀ c ∈ initParseState.acc, goodCell c := by
    intro c hc
    simp [initParseState] at hc
  unfold parseLinesF finishParse
  exact goodAcc_addOutputFlush _ (goodAcc_addMdCell _
    (goodAcc_addJsCell _ (goodAcc_foldl lines initParseState hinit)))

/-- Concrete instance of `claim7_parser_no_blank` on a one-cell markdown
document. -/
theorem claim7_parser_no_blank_witness :
    nonBlank "hi".toList = true ∧
    (⟨.md, "hi".toList, some .edit, []⟩ : ProtoCell) ∈
      parseLinesF ["/* Markdown".toList, "hi".toList, "*/".toList] := by
  refine ⟨?_, by decide⟩
  exact (claim7_parser_no_blank ["/* Markdown".toList, "hi".toList, "*/".toList]
    ⟨.md, "hi".toList, some .edit, []⟩ (by decide)).1 rfl

/-! ### C1 — round-trip: cleanliness predicates -/

/-- A content line that collides with no marker: its trimmed form is not
a code marker, does not open a markdown or output block, and does not end
with the close token. -/
def cleanLineB (l : Chars) : Bool :=
  decide (trimText l ≠ codeStartMark) && decide (trimText l ≠ codeEndMark) &&
  !(mdMark.isPrefixOf (trimText l)) && !(outMark.isPrefixOf (trimText l)) &&
  !(closeMark.isSuffixOf (trimText l))

/-- Whether a text contains no newline. -/
def noNL (l : Chars) : Bool := l.all (fun c => !(c = '\n'))

/-- A cell text the format can carry losslessly: nonempty, stable under
trimming, and with no marker-colliding line. -/
def cleanTextB (t : Chars) : Bool :=
  decide (t ≠ []) && decide (trimText t = t) && (splitLines t).all cleanLineB

/-- A text free of the characters the serializer entity-escapes. -/
def noEscapeB (t : Chars) : Bool :=
  t.all (fun c => !(c = '<' || c = '>' || c = '&' || c = '"' || c = apos))

/-- The output lists the format can carry losslessly: none, or a single
log output with clean, escape-free text. -/
def cleanOutputsB : List Output → Bool
  | [] => true
  | [Output.log d] => cleanTextB d && noEscapeB d
  | _ => false

/-- A cell the format can carry losslessly. -/
def cleanCellB (c : ProtoCell) : Bool :=
  cleanTextB c.code &&
  (match c.ctype with
   | .js => c.mode.isNone && cleanOutputsB c.outputs
   | .md => c.mode.isSome && c.outputs.isEmpty)

/-! ### C1 — split/join lemmas -/

lemma splitLines_ne_nil : ∀ s : Chars, splitLines s ≠ []
  | [] => by simp [splitLines]
  | c :: cs => by
    unfold splitLines
    by_cases h : c = '\n'
    · rw [if_pos h]
      simp
    · rw [if_neg h]
      rcases hS : splitLines cs with _ | ⟨l, rest⟩
      · simp
      · simp

lemma splitLines_cons_nl (cs : Chars) : splitLines ('\n' :: cs) = [] :: splitLines cs := by
  cases cs <;> rfl

lemma splitLines_cons_other (c : Char) (cs : Chars) (h : c ≠ '\n') :
    ∃ l rest, splitLines cs = l :: rest ∧ splitLines (c :: cs) = (c :: l) :: rest := by
  rcases hS : splitLines cs with _ | ⟨l, rest⟩
  · exact absurd hS (splitLines_ne_nil cs)
  · refine ⟨l, rest, rfl, ?_⟩
    unfold splitLines
    rw [if_neg h, hS]

lemma joinLines_cons (l : Chars) (ls : List Chars) (h : ls ≠ []) :
    joinLines (l :: ls) = l ++ '\n' :: joinLines ls := by
  rcases ls with _ | ⟨l2, t⟩
  · exact absurd rfl h
  · rfl

lemma joinLines_append (l1 l2 : List Chars) (h1 : l1 ≠ []) (h2 : l2 ≠ []) :
    joinLines (l1 ++ l2) = joinLines l1 ++ '\n' :: joinLines l2 := by
  induction l1 with
  | nil => exact absurd rfl h1
  | cons a t ih =>
    rcases t with _ | ⟨b, t2⟩
    · rw [List.cons_append, List.nil_append, joinLines_cons a l2 h2]
      rfl
    · rw [List.cons_append, joinLines_cons a ((b :: t2) ++ l2) (by simp),
        joinLines_cons a (b :: t2) (by simp), ih (by simp), List.append_assoc]
      simp

lemma joinLines_splitLines : ∀ s : Chars, joinLines (splitLines s) = s
  | [] => rfl
  | c :: cs => by
    by_cases h : c = '\n'
    · subst h
      rw [splitLines_cons_nl, joinLines_cons [] (splitLines cs) (splitLines_ne_nil cs),
        List.nil_append, joinLines_splitLines cs]
    · obtain ⟨l, rest, hS, hS2⟩ := splitLines_cons_other c cs h
      rw [hS2]
      rcases rest with _ | ⟨r2, t⟩
      · show c :: l = c :: cs
        have := joinLines_splitLines cs
        rw [hS] at this
        exact congrArg (c :: ·) this
      · rw [joinLines_cons (c :: l) (r2 :: t) (by simp)]
        have := joinLines_splitLines cs
        rw [hS, joinLines_cons l (r2 :: t) (by simp)] at this
        rw [List.cons_append, this]

lemma splitLines_noNL : ∀ (s : Chars) (l : Chars), l ∈ splitLines s → noNL l = true
  | [], l, h => by
    simp [splitLines] at h
    simp [h, noNL]
  | c :: cs, l, h => by
    by_cases hc : c = '\n'
    · subst hc
      rw [splitLines_cons_nl] at h
      rcases List.mem_cons.1 h with h2 | h2
      · simp [h2, noNL]
      · exact splitLines_noNL cs l h2
    · obtain ⟨l2, rest, hS, hS2⟩ := splitLines_cons_other c cs hc
      rw [hS2] at h
      rcases List.mem_cons.1 h with h2 | h2
      · subst h2
        have hl2 : noNL l2 = true := splitLines_noNL cs l2 (by rw [hS]; simp)
        simp [noNL] at hl2 ⊢
        exact ⟨hc, hl2⟩
      · exact splitLines_noNL cs l (by rw [hS]; exact List.mem_cons_of_mem l2 h2)

lemma splitLines_single (l : Chars) (h : noNL l = true) : splitLines l = [l] := by
  induction l with
  | nil => rfl
  | cons c cs ih =>
    simp [noNL] at h
    obtain ⟨hc, hcs⟩ := h
    obtain ⟨l2, rest, hS, hS2⟩ := splitLines_cons_other c cs hc
    rw [ih (by simp [noNL]; exact hcs)] at hS
    cases hS
    exact hS2

lemma splitLines_append_cons (xs ys : Chars) (h : noNL xs = true) :
    splitLines (xs ++ '\n' :: ys) = xs :: splitLines ys := by
  induction xs with
  | nil => exact splitLines_cons_nl ys
  | cons c t ih =>
    simp [noNL] at h
    obtain ⟨hc, ht⟩ := h
    obtain ⟨l2, rest, hS, hS2⟩ := splitLines_cons_other c (t ++ '\n' :: ys) hc
    rw [ih (by simp [noNL]; exact ht)] at hS
    cases hS
    rw [List.cons_append, hS2]

lemma splitLines_joinLines : ∀ (L : List Chars), L ≠ [] → (∀ l ∈ L, noNL l = true) →
    splitLines (joinLines L) = L
  | [], h, _ => absurd rfl h
  | [l], _, hn => by
    show splitLines l = [l]
    exact splitLines_single l (hn l (by simp))
  | l :: l2 :: t, _, hn => by
    rw [joinLines_cons l (l2 :: t) (by simp),
      splitLines_append_cons l (joinLines (l2 :: t)) (hn l (by simp)),
      splitLines_joinLines (l2 :: t) (by simp) (fun x hx => hn x (List.mem_cons_of_mem l hx))]

/-! ### C1 — trim lemmas -/

lemma trimLeft_length_le (u : Chars) : (trimLeft u).length ≤ u.length := by
  obtain ⟨t, ht⟩ := exists_append_dropWhile wsChar u
  have := congrArg List.length ht
  simp at this
  unfold trimLeft
  omega

lemma trimRight_length_le (u : Chars) : (trimRight u).length ≤ u.length := by
  obtain ⟨k, hk⟩ := trimRight_take u
  rw [hk]
  simp

lemma trim_stable_parts (t : Chars) (h : trimText t = t) :
    trimLeft t = t ∧ trimRight t = t := by
  have h1 : (trimLeft t).length ≤ t.length := trimLeft_length_le t
  have h2 : (trimText t).length ≤ (trimLeft t).length := trimRight_length_le _
  rw [h] at h2
  have hL : trimLeft t = t := by
    obtain ⟨u, hu⟩ := exists_append_dropWhile wsChar t
    have hlen := congrArg List.length hu
    simp at hlen
    have hu0 : u.length = 0 := by
      show u.length = 0
      unfold trimLeft at h1 h2
      omega
    rw [List.length_eq_zero] at hu0
    subst hu0
    rw [List.nil_append] at hu
    exact hu.symm
  refine ⟨hL, ?_⟩
  have : trimRight (trimLeft t) = t := h
  rwa [hL] at this

lemma head_nonws_of_stable (t : Chars) (h : trimText t = t) (hne : t ≠ []) :
    ∃ c cs, t = c :: cs ∧ wsChar c = false := by
  obtain ⟨h3, _⟩ := trim_stable_parts t h
  rcases ht : t with _ | ⟨c, cs⟩
  · exact absurd ht hne
  · refine ⟨c, cs, rfl, ?_⟩
    rw [ht] at h3
    exact dropWhile_head_false wsChar (c :: cs) c cs h3

lemma last_nonws_of_stable (t : Chars) (h : trimText t = t) (hne : t ≠ []) :
    ∃ z c, t = z ++ [c] ∧ wsChar c = false := by
  obtain ⟨_, h3⟩ := trim_stable_parts t h
  have h4 : List.dropWhile wsChar t.reverse = t.reverse := by
    have := congrArg List.reverse h3
    unfold trimRight at this
    rwa [List.reverse_reverse] at this
  rcases ht : t.reverse with _ | ⟨c, cs⟩
  · have : t = [] := by
      have := congrArg List.reverse ht
      rwa [List.reverse_reverse] at this
    exact absurd this hne
  · rw [ht] at h4
    refine ⟨cs.reverse, c, ?_, dropWhile_head_false wsChar (c :: cs) c cs h4⟩
    have := congrArg List.reverse ht
    rw [List.reverse_reverse] at this
    rw [this]
    exact List.reverse_cons c cs

lemma trimRight_append_ws (t : Chars) (c : Char) (hc : wsChar c = true) :
    trimRight (t ++ [c]) = trimRight t := by
  unfold trimRight
  rw [List.reverse_append]
  show (List.dropWhile wsChar (c :: t.reverse)).reverse = _
  rw [List.dropWhile_cons, if_pos hc]

lemma trimRight_stable_of_last (z : Chars) (c : Char) (hc : wsChar c = false) :
    trimRight (z ++ [c]) = z ++ [c] := by
  unfold trimRight
  rw [List.reverse_append]
  show (List.dropWhile wsChar (c :: z.reverse)).reverse = _
  rw [List.dropWhile_cons, if_neg (by simp [hc])]
  show (c :: z.reverse).reverse = _
  rw [List.reverse_cons, List.reverse_reverse]

lemma trimLeft_stable_of_head (c : Char) (cs : Chars) (hc : wsChar c = false) :
    trimLeft (c :: cs) = c :: cs := by
  unfold trimLeft
  rw [List.dropWhile_cons, if_neg (by simp [hc])]

/-- Trimming a text that starts and ends with a non-whitespace character
and carries two trailing newlines removes exactly those newlines. -/
lemma trimText_append_two_nl (y : Chars) (c0 : Char) (ys : Chars) (z : Chars) (cl : Char)
    (hhead : y = c0 :: ys) (hc0 : wsChar c0 = false)
    (hlast : y = z ++ [cl]) (hcl : wsChar cl = false) :
    trimText (y ++ ['\n', '\n']) = y := by
  unfold trimText
  have h1 : trimLeft (y ++ ['\n', '\n']) = y ++ ['\n', '\n'] := by
    rw [hhead]
    exact trimLeft_stable_of_head c0 (ys ++ ['\n', '\n']) hc0
  rw [h1]
  have h2 : y ++ ['\n', '\n'] = (y ++ ['\n']) ++ ['\n'] := by
    rw [List.append_assoc]
    rfl
  rw [h2, trimRight_append_ws _ '\n' (by decide), trimRight_append_ws _ '\n' (by decide),
    hlast, trimRight_stable_of_last z cl hcl]

/-- Trimming a clean text with one trailing newline (the shape the output
accumulator reaches before its flush) recovers the text. -/
lemma trimText_append_nl (t : Chars) (h : trimText t = t) (hne : t ≠ []) :
    trimText (t ++ ['\n']) = t := by
  obtain ⟨c, cs, hcons, hc⟩ := head_nonws_of_stable t h hne
  obtain ⟨z, cl, hlast, hcl⟩ := last_nonws_of_stable t h hne
  unfold trimText
  have h1 : trimLeft (t ++ ['\n']) = t ++ ['\n'] := by
    rw [hcons]
    exact trimLeft_stable_of_head c (cs ++ ['\n']) hc
  rw [h1, trimRight_append_ws _ '\n' (by decide), hlast,
    trimRight_stable_of_last z cl hcl]

/-! ### C1 — the serialized document, line by line -/

/-- The lines a clean cell's serialization contributes (without the
trailing blank separator): markdown cells an opener, the text's lines and
the close token; code cells the code markers around the text's lines,
followed — when outputs are present — by a blank line and the output
block (this helper renders the single-log-output shape the round trip
covers). -/
def cellLines (c : ProtoCell) : List Chars :=
  match c.ctype with
  | .md => (if c.mode = some .render then mdRenderLine else mdMark) ::
      (splitLines c.code ++ [closeMark])
  | .js => codeStartMark :: (splitLines c.code ++ [codeEndMark]) ++
      (match c.outputs with
       | [] => []
       | Output.log d :: _ => [[], outSampleLine, []] ++ (splitLines d ++ [[], closeMark])
       | _ => [])

/-- All lines of the serialized document: cells' blocks separated by one
blank line. -/
def allLines : List ProtoCell → List Chars
  | [] => []
  | [c] => cellLines c
  | c :: rest => cellLines c ++ [] :: allLines rest

lemma escapeChar_id (c : Char)
    (h : (c = '<' || c = '>' || c = '&' || c = '"' || c = apos) = false) :
    escapeChar c = [c] := by
  simp only [Bool.or_eq_false_iff, decide_eq_false_iff_not] at h
  unfold escapeChar
  rw [if_neg h.1.1.1.1, if_neg h.1.1.1.2, if_neg h.1.1.2, if_neg h.1.2, if_neg h.2]

lemma escapeText_id (d : Chars) (h : noEscapeB d = true) : escapeText d = d := by
  induction d with
  | nil => rfl
  | cons c cs ih =>
    simp only [noEscapeB, List.all_cons, Bool.and_eq_true, Bool.not_eq_true'] at h
    unfold escapeText
    rw [List.map_cons, List.flatten_cons, escapeChar_id c h.1]
    have := ih (by simp only [noEscapeB]; exact h.2)
    unfold escapeText at this
    rw [this]
    rfl

lemma litCloseNl : "\n*/\n\n".toList = '\n' :: (closeMark ++ ['\n', '\n']) := by decide

lemma litTwoNl : "\n\n".toList = ['\n', '\n'] := by decide

lemma litOutHeader : "/* Output Sample\n\n".toList = outSampleLine ++ ['\n', '\n'] := by
  decide

lemma litCloseTail : "*/\n\n".toList = closeMark ++ ['\n', '\n'] := by decide

lemma joinLines_single (l : Chars) : joinLines [l] = l := rfl

lemma cleanTextB_parts (t : Chars) (h : cleanTextB t = true) :
    t ≠ [] ∧ trimText t = t ∧ ∀ l ∈ splitLines t, cleanLineB l = true := by
  simp only [cleanTextB, Bool.and_eq_true, decide_eq_true_eq, List.all_eq_true] at h
  exact ⟨h.1.1, h.1.2, h.2⟩

lemma cleanOutputsB_cases (outs : List Output) (h : cleanOutputsB outs = true) :
    outs = [] ∨ ∃ d, outs = [Output.log d] ∧ cleanTextB d = true ∧ noEscapeB d = true := by
  rcases outs with _ | ⟨o, rest⟩
  · exact Or.inl rfl
  · rcases o with d | d | ⟨d, m⟩
    · rcases rest with _ | ⟨o2, rest2⟩
      · simp only [cleanOutputsB, Bool.and_eq_true] at h
        exact Or.inr ⟨d, rfl, h.1, h.2⟩
      · simp [cleanOutputsB] at h
    · simp [cleanOutputsB] at h
    · simp [cleanOutputsB] at h

/-- For a clean cell the serializer's output is exactly the join of
`cellLines` plus the trailing blank separator. -/
lemma serializeCell_eq (c : ProtoCell) (hc : cleanCellB c = true) :
    serializeCell c = joinLines (cellLines c) ++ ['\n', '\n'] := by
  rcases c with ⟨ct, code, mode, outputs⟩
  simp only [cleanCellB, Bool.and_eq_true] at hc
  obtain ⟨hcode, hty⟩ := hc
  obtain ⟨hne, hstable, hlines⟩ := cleanTextB_parts code hcode
  rcases ct with _ | _
  · simp only [Bool.and_eq_true] at hty
    obtain ⟨hmode, houts⟩ := hty
    rcases cleanOutputsB_cases outputs houts with h0 | ⟨d, hd, hdc, hdesc⟩
    · subst h0
      show codeStartMark ++ '\n' :: code ++ '\n' :: codeEndMark ++ "\n\n".toList ++ [] =
        joinLines (cellLines ⟨.js, code, mode, []⟩) ++ ['\n', '\n']
      rw [show cellLines ⟨.js, code, mode, []⟩ =
          codeStartMark :: (splitLines code ++ [codeEndMark]) ++ [] from rfl]
      rw [List.append_nil, List.append_nil,
        joinLines_cons codeStartMark (splitLines code ++ [codeEndMark]) (by simp),
        joinLines_append (splitLines code) [codeEndMark] (splitLines_ne_nil code) (by simp),
        joinLines_splitLines, litTwoNl]
      show _ = codeStartMark ++ ('\n' :: (code ++ '\n' :: joinLines [codeEndMark])) ++ _
      simp [List.append_assoc, joinLines_single]
    · subst hd
      show codeStartMark ++ '\n' :: code ++ '\n' :: codeEndMark ++ "\n\n".toList ++
          ("/* Output Sample\n\n".toList ++
            ((serializeOutput (Output.log d)) ++ []) ++ "*/\n\n".toList) =
        joinLines (cellLines ⟨.js, code, mode, [Output.log d]⟩) ++ ['\n', '\n']
      obtain ⟨hdne, hdstable, _⟩ := cleanTextB_parts d hdc
      rw [show cellLines ⟨.js, code, mode, [Output.log d]⟩ =
          codeStartMark :: (splitLines code ++ [codeEndMark]) ++
            ([[], outSampleLine, []] ++ (splitLines d ++ [[], closeMark])) from rfl]
      rw [show serializeOutput (Output.log d) = escapeText d ++ "\n\n".toList from rfl,
        escapeText_id d hdesc]
      rw [joinLines_append (codeStartMark :: (splitLines code ++ [codeEndMark]))
          ([[], outSampleLine, []] ++ (splitLines d ++ [[], closeMark])) (by simp) (by simp),
        joinLines_cons codeStartMark (splitLines code ++ [codeEndMark]) (by simp),
        joinLines_append (splitLines code) [codeEndMark] (splitLines_ne_nil code) (by simp),
        joinLines_splitLines]
      rw [show ([[], outSampleLine, []] ++ (splitLines d ++ [[], closeMark])) =
          ([] : Chars) :: (outSampleLine :: (([] : Chars) ::
            (splitLines d ++ [([] : Chars), closeMark]))) from rfl]
      rw [joinLines_cons ([] : Chars) _ (by simp), joinLines_cons outSampleLine _ (by simp),
        joinLines_cons ([] : Chars) (splitLines d ++ [([] : Chars), closeMark]) (by simp),
        joinLines_append (splitLines d) [([] : Chars), closeMark]
          (splitLines_ne_nil d) (by simp),
        joinLines_splitLines,
        joinLines_cons ([] : Chars) [closeMark] (by simp)]
      rw [litTwoNl, litOutHeader, litCloseTail]
      show _ = codeStartMark ++ ('\n' :: (code ++ '\n' :: joinLines [codeEndMark]) ++
        '\n' :: ([] ++ '\n' :: (outSampleLine ++ '\n' :: ([] ++ '\n' ::
          (d ++ '\n' :: ([] ++ '\n' :: joinLines [closeMark])))))) ++ _
      simp [List.append_assoc, joinLines_single]
  · simp only [Bool.and_eq_true] at hty
    show (if mode = some .render then mdRenderLine else mdMark) ++ '\n' :: code ++
        "\n*/\n\n".toList =
      joinLines (cellLines ⟨.md, code, mode, outputs⟩) ++ ['\n', '\n']
    rw [show cellLines ⟨.md, code, mode, outputs⟩ =
        (if mode = some .render then mdRenderLine else mdMark) ::
          (splitLines code ++ [closeMark]) from rfl]
    rw [joinLines_cons _ (splitLines code ++ [closeMark]) (by simp),
      joinLines_append (splitLines code) [closeMark] (splitLines_ne_nil code) (by simp),
      joinLines_splitLines, litCloseNl]
    show _ = _ ++ ('\n' :: (code ++ '\n' :: joinLines [closeMark])) ++ _
    simp [List.append_assoc, joinLines_single]

lemma cellLines_ne_nil (c : ProtoCell) : cellLines c ≠ [] := by
  unfold cellLines
  rcases c.ctype with _ | _ <;> simp

lemma allLines_ne_nil (cells : List ProtoCell) (h : cells ≠ []) : allLines cells ≠ [] := by
  rcases cells with _ | ⟨c, rest⟩
  · exact absurd rfl h
  · rcases rest with _ | ⟨b, t⟩
    · exact cellLines_ne_nil c
    · show cellLines c ++ [] :: allLines (b :: t) ≠ []
      simp

/-- The concatenated serializer output of a nonempty clean cell list. -/
lemma concat_serialize : ∀ (cells : List ProtoCell), cells ≠ [] →
    cells.all cleanCellB = true →
    (cells.map serializeCell).flatten = joinLines (allLines cells) ++ ['\n', '\n']
  | [], h, _ => absurd rfl h
  | [c], _, hall => by
    simp only [List.all_cons, List.all_nil, Bool.and_eq_true] at hall
    show serializeCell c ++ [] = joinLines (allLines [c]) ++ ['\n', '\n']
    rw [List.append_nil, serializeCell_eq c hall.1]
    rfl
  | c :: b :: t, _, hall => by
    simp only [List.all_cons, Bool.and_eq_true] at hall
    show serializeCell c ++ ((b :: t).map serializeCell).flatten = _
    rw [concat_serialize (b :: t) (by simp) (by simp [hall.2.1, hall.2.2]),
      serializeCell_eq c hall.1]
    show _ = joinLines (cellLines c ++ [] :: allLines (b :: t)) ++ ['\n', '\n']
    rw [joinLines_append (cellLines c) ([] :: allLines (b :: t))
        (cellLines_ne_nil c) (by simp),
      joinLines_cons ([] : Chars) (allLines (b :: t))
        (allLines_ne_nil (b :: t) (by simp))]
    simp [List.append_assoc]

lemma cellLines_noNL (c : ProtoCell) : ∀ l ∈ cellLines c, noNL l = true := by
  rcases c with ⟨ct, code, mode, outputs⟩
  rcases ct with _ | _
  · rcases outputs with _ | ⟨o, rest⟩
    · show ∀ l ∈ codeStartMark :: ((splitLines code ++ [codeEndMark]) ++ ([] : List Chars)),
        noNL l = true
      intro l hl
      rw [List.append_nil] at hl
      rcases List.mem_cons.1 hl with h2 | h2
      · subst h2
        decide
      · rcases List.mem_append.1 h2 with h3 | h3
        · exact splitLines_noNL code l h3
        · simp at h3
          subst h3
          decide
    · rcases o with d | d | ⟨d, m⟩
      · show ∀ l ∈ codeStartMark :: ((splitLines code ++ [codeEndMark]) ++
            ([[], outSampleLine, []] ++ (splitLines d ++ [[], closeMark]))), noNL l = true
        intro l hl
        rcases List.mem_cons.1 hl with h2 | h2
        · subst h2
          decide
        · rcases List.mem_append.1 h2 with h3 | h3
          · rcases List.mem_append.1 h3 with h4 | h4
            · exact splitLines_noNL code l h4
            · simp at h4
              subst h4
              decide
          · rcases List.mem_append.1 h3 with h4 | h4
            · rcases List.mem_cons.1 h4 with h5 | h5
              · subst h5
                decide
              · rcases List.mem_cons.1 h5 with h6 | h6
                · subst h6
                  decide
                · simp at h6
                  subst h6
                  decide
            · rcases List.mem_append.1 h4 with h5 | h5
              · exact splitLines_noNL d l h5
              · rcases List.mem_cons.1 h5 with h6 | h6
                · subst h6
                  decide
                · simp at h6
                  subst h6
                  decide
      · show ∀ l ∈ codeStartMark :: ((splitLines code ++ [codeEndMark]) ++ ([] : List Chars)),
          noNL l = true
        intro l hl
        rw [List.append_nil] at hl
        rcases List.mem_cons.1 hl with h2 | h2
        · subst h2
          decide
        · rcases List.mem_append.1 h2 with h3 | h3
          · exact splitLines_noNL code l h3
          · simp at h3
            subst h3
            decide
      · show ∀ l ∈ codeStartMark :: ((splitLines code ++ [codeEndMark]) ++ ([] : List Chars)),
          noNL l = true
        intro l hl
        rw [List.append_nil] at hl
        rcases List.mem_cons.1 hl with h2 | h2
        · subst h2
          decide
        · rcases List.mem_append.1 h2 with h3 | h3
          · exact splitLines_noNL code l h3
          · simp at h3
            subst h3
            decide
  · show ∀ l ∈ (if mode = some MdMode.render then mdRenderLine else mdMark) ::
        (splitLines code ++ [closeMark]), noNL l = true
    intro l hl
    rcases List.mem_cons.1 hl with h2 | h2
    · subst h2
      by_cases hm : mode = some MdMode.render
      · rw [if_pos hm]
        decide
      · rw [if_neg hm]
        decide
    · rcases List.mem_append.1 h2 with h3 | h3
      · exact splitLines_noNL code l h3
      · simp at h3
        subst h3
        decide

lemma allLines_noNL : ∀ (cells : List ProtoCell), ∀ l ∈ allLines cells, noNL l = true
  | [], l, h => by simp [allLines] at h
  | [c], l, h => cellLines_noNL c l h
  | c :: b :: t, l, h => by
    rcases List.mem_append.1 h with h1 | h1
    · exact cellLines_noNL c l h1
    · rcases List.mem_cons.1 h1 with h2 | h2
      · subst h2
        decide
      · exact allLines_noNL (b :: t) l h2

/-! ### C1 — parser steps on the serialized lines -/

/-- Parser state with no open block and empty accumulators. -/
def neutralSt (acc : List ProtoCell) (m : MdMode) : ParseState :=
  { acc := acc, jsLines := [], mdContent := [], outputContent := [],
    inCode := false, inMd := false, inOut := false, mdMode := m }

lemma addJsCell_nop (st : ParseState) (h : st.jsLines = []) : addJsCell st = st := by
  unfold addJsCell
  rw [if_neg (by simp [h])]

lemma addMdCell_nop (st : ParseState) (h : trimText st.mdContent = []) : addMdCell st = st := by
  unfold addMdCell
  rw [if_neg (by simp [h])]

lemma addOutputFlush_nop (st : ParseState) (h : trimText st.outputContent = []) :
    addOutputFlush st = st := by
  unfold addOutputFlush
  rw [if_neg (by simp [h])]

lemma finishParse_neutral (acc : List ProtoCell) (m : MdMode) :
    finishParse (neutralSt acc m) = neutralSt acc m := by
  unfold finishParse
  rw [addJsCell_nop (neutralSt acc m) rfl, addMdCell_nop (neutralSt acc m) rfl,
    addOutputFlush_nop (neutralSt acc m) rfl]

/-- A clean line falls through every marker branch into the accumulation
branch chain. -/
lemma stepContent (st : ParseState) (line : Chars) (h : cleanLineB line = true) :
    parseStep st line =
      (if st.inCode then { st with jsLines := st.jsLines ++ [line] }
       else if st.inMd then { st with mdContent := jsAppend st.mdContent line }
       else if st.inOut then { st with outputContent := jsAppend st.outputContent line }
       else st) := by
  simp only [cleanLineB, Bool.and_eq_true, decide_eq_true_eq, Bool.not_eq_true'] at h
  obtain ⟨⟨⟨⟨h1, h2⟩, h3⟩, h4⟩, h5⟩ := h
  unfold parseStep
  rw [if_neg h1, if_neg h2, if_neg (by simp [h3]), if_neg (by simp [h4]),
    if_neg (by simp [h5])]

lemma step_line_code (acc : List ProtoCell) (m : MdMode) (js : List Chars) (l : Chars)
    (h : cleanLineB l = true) :
    parseStep ⟨acc, js, [], [], true, false, false, m⟩ l =
      ⟨acc, js ++ [l], [], [], true, false, false, m⟩ := by
  rw [stepContent _ l h]
  rfl

lemma step_line_md (acc : List ProtoCell) (m : MdMode) (mdc : Chars) (l : Chars)
    (h : cleanLineB l = true) :
    parseStep ⟨acc, [], mdc, [], false, true, false, m⟩ l =
      ⟨acc, [], jsAppend mdc l, [], false, true, false, m⟩ := by
  rw [stepContent _ l h]
  rfl

lemma step_line_out (acc : List ProtoCell) (m : MdMode) (outc : Chars) (l : Chars)
    (h : cleanLineB l = true) :
    parseStep ⟨acc, [], [], outc, false, false, true, m⟩ l =
      ⟨acc, [], [], jsAppend outc l, false, false, true, m⟩ := by
  rw [stepContent _ l h]
  rfl

lemma step_blank_raw (acc : List ProtoCell) (m : MdMode) :
    parseStep ⟨acc, [], [], [], false, false, false, m⟩ [] =
      ⟨acc, [], [], [], false, false, false, m⟩ := by
  rw [stepContent _ [] (by decide)]
  rfl

lemma step_codeStart_raw (acc : List ProtoCell) (m : MdMode) :
    parseStep ⟨acc, [], [], [], false, false, false, m⟩ codeStartMark =
      ⟨acc, [], [], [], true, false, false, m⟩ := by
  unfold parseStep
  rw [if_pos (by decide)]
  rw [addMdCell_nop ⟨acc, [], [], [], false, false, false, m⟩ rfl,
    addOutputFlush_nop ⟨acc, [], [], [], false, false, false, m⟩ rfl]

lemma step_codeEnd (acc : List ProtoCell) (m : MdMode) (js : List Chars) (h : js ≠ []) :
    parseStep ⟨acc, js, [], [], true, false, false, m⟩ codeEndMark =
      ⟨acc ++ [⟨.js, trimText (joinLines js), none, []⟩], [], [], [], false, false, false, m⟩ := by
  unfold parseStep
  rw [if_neg (by decide), if_pos (by decide)]
  unfold addJsCell
  rw [if_pos (by simpa using h)]

lemma step_mdMark_raw (acc : List ProtoCell) (m : MdMode) :
    parseStep ⟨acc, [], [], [], false, false, false, m⟩ mdMark =
      ⟨acc, [], [], [], false, true, false, .edit⟩ := by
  unfold parseStep
  rw [if_neg (by decide), if_neg (by decide), if_pos (by decide)]
  rw [addJsCell_nop ⟨acc, [], [], [], false, false, false, m⟩ rfl,
    addOutputFlush_nop ⟨acc, [], [], [], false, false, false, m⟩ rfl]
  rw [if_neg (by decide)]

lemma step_mdRender_raw (acc : List ProtoCell) (m : MdMode) :
    parseStep ⟨acc, [], [], [], false, false, false, m⟩ mdRenderLine =
      ⟨acc, [], [], [], false, true, false, .render⟩ := by
  unfold parseStep
  rw [if_neg (by decide), if_neg (by decide), if_pos (by decide)]
  rw [addJsCell_nop ⟨acc, [], [], [], false, false, false, m⟩ rfl,
    addOutputFlush_nop ⟨acc, [], [], [], false, false, false, m⟩ rfl]
  rw [if_pos (by decide)]

lemma step_outSample_raw (acc : List ProtoCell) (m : MdMode) :
    parseStep ⟨acc, [], [], [], false, false, false, m⟩ outSampleLine =
      ⟨acc, [], [], [], false, false, true, m⟩ := by
  unfold parseStep
  rw [if_neg (by decide), if_neg (by decide), if_neg (by decide), if_pos (by decide)]
  rw [addJsCell_nop ⟨acc, [], [], [], false, false, false, m⟩ rfl,
    addMdCell_nop ⟨acc, [], [], [], false, false, false, m⟩ rfl]

lemma step_close_md (acc : List ProtoCell) (m : MdMode) (mdc : Chars)
    (h : trimText mdc ≠ []) :
    parseStep ⟨acc, [], mdc, [], false, true, false, m⟩ closeMark =
      ⟨acc ++ [⟨.md, trimText mdc, some m, []⟩], [], [], [], false, false, false, m⟩ := by
  unfold parseStep
  rw [if_neg (by decide), if_neg (by decide), if_neg (by decide), if_neg (by decide),
    if_pos (by decide)]
  rw [show trimText (dropCloser closeMark) = [] from by decide]
  unfold closeAppend
  rw [if_neg (by simp)]
  unfold closeFlush
  rw [if_pos rfl]
  unfold addMdCell
  rw [if_pos (by simpa using h)]

lemma step_close_out (acc : List ProtoCell) (m : MdMode) (outc : Chars)
    (h : trimText outc ≠ []) (hacc : acc ≠ []) :
    parseStep ⟨acc, [], [], outc, false, false, true, m⟩ closeMark =
      ⟨attachToLastJs acc (.log (trimText outc)), [], [], [], false, false, false, m⟩ := by
  unfold parseStep
  rw [if_neg (by decide), if_neg (by decide), if_neg (by decide), if_neg (by decide),
    if_pos (by decide)]
  rw [show trimText (dropCloser closeMark) = [] from by decide]
  unfold closeAppend
  rw [if_neg (by simp)]
  unfold closeFlush
  rw [if_neg (by simp), if_pos rfl]
  unfold addOutputFlush
  rw [if_pos ⟨by simpa using h, by simpa using hacc⟩]

/-! ### C1 — folding content lines -/

lemma foldl_code (acc : List ProtoCell) (m : MdMode) :
    ∀ (ls : List Chars) (js : List Chars), (∀ l ∈ ls, cleanLineB l = true) →
    List.foldl parseStep ⟨acc, js, [], [], true, false, false, m⟩ ls =
      ⟨acc, js ++ ls, [], [], true, false, false, m⟩
  | [], js, _ => by simp
  | l :: rest, js, h => by
    rw [List.foldl_cons, step_line_code acc m js l (h l (by simp)),
      foldl_code acc m rest (js ++ [l]) (fun x hx => h x (by simp [hx]))]
    simp

lemma foldl_md (acc : List ProtoCell) (m : MdMode) :
    ∀ (ls : List Chars) (mdc : Chars), (∀ l ∈ ls, cleanLineB l = true) →
    List.foldl parseStep ⟨acc, [], mdc, [], false, true, false, m⟩ ls =
      ⟨acc, [], List.foldl jsAppend mdc ls, [], false, true, false, m⟩
  | [], mdc, _ => by simp
  | l :: rest, mdc, h => by
    rw [List.foldl_cons, step_line_md acc m mdc l (h l (by simp)),
      foldl_md acc m rest (jsAppend mdc l) (fun x hx => h x (by simp [hx]))]
    rfl

lemma foldl_out (acc : List ProtoCell) (m : MdMode) :
    ∀ (ls : List Chars) (outc : Chars), (∀ l ∈ ls, cleanLineB l = true) →
    List.foldl parseStep ⟨acc, [], [], outc, false, false, true, m⟩ ls =
      ⟨acc, [], [], List.foldl jsAppend outc ls, false, false, true, m⟩
  | [], outc, _ => by simp
  | l :: rest, outc, h => by
    rw [List.foldl_cons, step_line_out acc m outc l (h l (by simp)),
      foldl_out acc m rest (jsAppend outc l) (fun x hx => h x (by simp [hx]))]
    rfl

lemma foldl_jsAppend_acc (w : Chars) (hw : w ≠ []) :
    ∀ ls : List Chars, List.foldl jsAppend w ls =
      w ++ (ls.map (fun l => '\n' :: l)).flatten
  | [] => by simp
  | l :: rest => by
    rw [List.foldl_cons]
    have h1 : jsAppend w l = w ++ '\n' :: l := by
      unfold jsAppend
      rw [if_neg hw]
    rw [h1, foldl_jsAppend_acc (w ++ '\n' :: l) (by simp) rest]
    simp

lemma joinLines_eq_head_flatten (l : Chars) :
    ∀ ls : List Chars, joinLines (l :: ls) = l ++ (ls.map (fun x => '\n' :: x)).flatten
  | [] => by simp [joinLines_single]
  | l2 :: t => by
    rw [joinLines_cons l (l2 :: t) (by simp), joinLines_eq_head_flatten l2 t]
    simp

lemma foldl_jsAppend_splitLines (t : Chars) (hstable : trimText t = t) (hne : t ≠ []) :
    List.foldl jsAppend [] (splitLines t) = t := by
  obtain ⟨c, cs, hcons, hc⟩ := head_nonws_of_stable t hstable hne
  have hcnl : c ≠ '\n' := by
    intro hx
    rw [hx] at hc
    exact absurd hc (by decide)
  subst hcons
  obtain ⟨l, rest, hS, hS2⟩ := splitLines_cons_other c cs hcnl
  rw [hS2, List.foldl_cons]
  have h1 : jsAppend [] (c :: l) = c :: l := by
    unfold jsAppend
    rw [if_pos rfl]
  rw [h1, foldl_jsAppend_acc (c :: l) (by simp) rest, ← joinLines_eq_head_flatten]
  have h2 := joinLines_splitLines (c :: cs)
  rw [hS2] at h2
  exact h2

/-! ### C1 — the serialized document round-trips -/

lemma attachToLastJs_append_js (acc : List ProtoCell) (p : ProtoCell) (o : Output)
    (hp : p.ctype = .js) :
    attachToLastJs (acc ++ [p]) o = acc ++ [{ p with outputs := p.outputs ++ [o] }] := by
  unfold attachToLastJs
  rw [List.reverse_append]
  show (attachRev (p :: acc.reverse) o).reverse = _
  unfold attachRev
  rw [if_pos hp, List.reverse_cons, List.reverse_reverse]

/-- The markdown mode the parser is left in after consuming a cell's block:
a markdown cell sets it to the cell's mode, a code cell leaves it alone. -/
def nextMode (c : ProtoCell) (m : MdMode) : MdMode :=
  match c.ctype, c.mode with
  | .md, some mm => mm
  | _, _ => m

lemma cellLines_head (c : ProtoCell) : ∃ w r, cellLines c = ('/' :: w) :: r := by
  rcases c with ⟨ct, code, mode, outputs⟩
  rcases ct with _ | _
  · exact ⟨codeStartMark.tail, _, rfl⟩
  · by_cases hm : mode = some MdMode.render
    · refine ⟨mdRenderLine.tail, splitLines code ++ [closeMark], ?_⟩
      show (if mode = some MdMode.render then mdRenderLine else mdMark) ::
        (splitLines code ++ [closeMark]) = _
      rw [if_pos hm]
      rfl
    · refine ⟨mdMark.tail, splitLines code ++ [closeMark], ?_⟩
      show (if mode = some MdMode.render then mdRenderLine else mdMark) ::
        (splitLines code ++ [closeMark]) = _
      rw [if_neg hm]
      rfl

lemma cellLines_last (c : ProtoCell) :
    ∃ init z cl, cellLines c = init ++ [z ++ [cl]] ∧ wsChar cl = false := by
  rcases c with ⟨ct, code, mode, outputs⟩
  rcases ct with _ | _
  · rcases outputs with _ | ⟨o, rest⟩
    · refine ⟨codeStartMark :: splitLines code, "// [CODE ENDS".toList, ']', ?_, by decide⟩
      show codeStartMark :: ((splitLines code ++ [codeEndMark]) ++ []) = _
      rw [List.append_nil, show ("// [CODE ENDS".toList ++ [']'] : Chars) = codeEndMark
        from by decide]
      rfl
    · rcases o with d | d | ⟨d, mm⟩
      · refine ⟨codeStartMark :: ((splitLines code ++ [codeEndMark]) ++
          ([[], outSampleLine, []] ++ (splitLines d ++ [[]]))), ['*'], '/', ?_, by decide⟩
        show codeStartMark :: ((splitLines code ++ [codeEndMark]) ++
          ([[], outSampleLine, []] ++ (splitLines d ++ [[], closeMark]))) = _
        rw [show ((['*'] ++ ['/']) : Chars) = closeMark from by decide]
        simp [List.append_assoc]
      · refine ⟨codeStartMark :: splitLines code, "// [CODE ENDS".toList, ']', ?_, by decide⟩
        show codeStartMark :: ((splitLines code ++ [codeEndMark]) ++ []) = _
        rw [List.append_nil, show ("// [CODE ENDS".toList ++ [']'] : Chars) = codeEndMark
          from by decide]
        rfl
      · refine ⟨codeStartMark :: splitLines code, "// [CODE ENDS".toList, ']', ?_, by decide⟩
        show codeStartMark :: ((splitLines code ++ [codeEndMark]) ++ []) = _
        rw [List.append_nil, show ("// [CODE ENDS".toList ++ [']'] : Chars) = codeEndMark
          from by decide]
        rfl
  · refine ⟨(if mode = some MdMode.render then mdRenderLine else mdMark) :: splitLines code,
      ['*'], '/', ?_, by decide⟩
    show (if mode = some MdMode.render then mdRenderLine else mdMark) ::
      (splitLines code ++ [closeMark]) = _
    rw [show ((['*'] ++ ['/']) : Chars) = closeMark from by decide]
    rfl

lemma allLines_head (c : ProtoCell) (rest : List ProtoCell) :
    ∃ w ls, allLines (c :: rest) = ('/' :: w) :: ls := by
  obtain ⟨w, r, hc⟩ := cellLines_head c
  rcases rest with _ | ⟨b, t⟩
  · exact ⟨w, r, hc⟩
  · refine ⟨w, r ++ [] :: allLines (b :: t), ?_⟩
    show cellLines c ++ [] :: allLines (b :: t) = _
    rw [hc]
    rfl

lemma allLines_last : ∀ (cells : List ProtoCell), cells ≠ [] →
    ∃ init z cl, allLines cells = init ++ [z ++ [cl]] ∧ wsChar cl = false
  | [], h => absurd rfl h
  | [c], _ => cellLines_last c
  | c :: b :: t, _ => by
    obtain ⟨init, z, cl, hrec, hcl⟩ := allLines_last (b :: t) (by simp)
    refine ⟨cellLines c ++ [] :: init, z, cl, ?_, hcl⟩
    show cellLines c ++ [] :: allLines (b :: t) = _
    rw [hrec]
    simp [List.append_assoc]

/-- For a nonempty clean cell list the serialized document is exactly the
newline-join of `allLines` (the final `.trim()` removes the two trailing
newlines of the last cell's separator and nothing else). -/
lemma downloadNotebook_eq (cells : List ProtoCell) (hne : cells ≠ [])
    (hall : cells.all cleanCellB = true) :
    downloadNotebook cells = joinLines (allLines cells) := by
  rcases cells with _ | ⟨c, rest⟩
  · exact absurd rfl hne
  unfold downloadNotebook
  rw [concat_serialize (c :: rest) (by simp) hall]
  obtain ⟨w, ls, hhead⟩ := allLines_head c rest
  obtain ⟨init, z, cl, hlast, hcl⟩ := allLines_last (c :: rest) (by simp)
  have hJhead : joinLines (allLines (c :: rest)) =
      '/' :: (w ++ (ls.map (fun x => '\n' :: x)).flatten) := by
    rw [hhead, joinLines_eq_head_flatten]
    rfl
  have hJlast : ∃ z2, joinLines (allLines (c :: rest)) = z2 ++ [cl] := by
    rcases init with _ | ⟨i0, it⟩
    · exact ⟨z, by rw [hlast, List.nil_append, joinLines_single]⟩
    · refine ⟨joinLines (i0 :: it) ++ '\n' :: z, ?_⟩
      rw [hlast, joinLines_append (i0 :: it) [z ++ [cl]] (by simp) (by simp),
        joinLines_single]
      simp [List.append_assoc]
  obtain ⟨z2, hJlast2⟩ := hJlast
  exact trimText_append_two_nl _ '/' _ z2 cl hJhead (by decide) hJlast2 hcl

/-- Feeding a clean cell's serialized block to the parser, starting from a
neutral state, appends exactly that cell to the accumulator and returns to
a neutral state. -/
lemma parse_cell (c : ProtoCell) (hc : cleanCellB c = true) (acc : List ProtoCell)
    (m : MdMode) (rest : List Chars) :
    List.foldl parseStep (neutralSt acc m) (cellLines c ++ rest) =
      List.foldl parseStep (neutralSt (acc ++ [c]) (nextMode c m)) rest := by
  rcases c with ⟨ct, code, mode, outputs⟩
  simp only [cleanCellB, Bool.and_eq_true] at hc
  obtain ⟨hcode, hty⟩ := hc
  obtain ⟨hne, hstable, hlines⟩ := cleanTextB_parts code hcode
  rcases ct with _ | _
  · simp only [Bool.and_eq_true] at hty
    obtain ⟨hmode, houts⟩ := hty
    rw [Option.isNone_iff_eq_none] at hmode
    subst hmode
    rcases cleanOutputsB_cases outputs houts with h0 | ⟨d, hd, hdc, hdesc⟩
    · subst h0
      show List.foldl parseStep ⟨acc, [], [], [], false, false, false, m⟩
          ((codeStartMark :: ((splitLines code ++ [codeEndMark]) ++ [])) ++ rest) =
        List.foldl parseStep
          ⟨acc ++ [⟨.js, code, none, []⟩], [], [], [], false, false, false, m⟩ rest
      have hll : (codeStartMark :: ((splitLines code ++ [codeEndMark]) ++ [])) ++ rest =
          codeStartMark :: (splitLines code ++ (codeEndMark :: rest)) := by
        simp
      rw [hll, List.foldl_cons, step_codeStart_raw, List.foldl_append,
        foldl_code acc m (splitLines code) [] hlines, List.nil_append,
        List.foldl_cons, step_codeEnd acc m (splitLines code) (splitLines_ne_nil code),
        joinLines_splitLines, hstable]
    · subst hd
      obtain ⟨hdne, hdstable, hdlines⟩ := cleanTextB_parts d hdc
      show List.foldl parseStep ⟨acc, [], [], [], false, false, false, m⟩
          ((codeStartMark :: ((splitLines code ++ [codeEndMark]) ++
            ([[], outSampleLine, []] ++ (splitLines d ++ [[], closeMark])))) ++ rest) =
        List.foldl parseStep
          ⟨acc ++ [⟨.js, code, none, [.log d]⟩], [], [], [], false, false, false, m⟩ rest
      have hll : (codeStartMark :: ((splitLines code ++ [codeEndMark]) ++
          ([[], outSampleLine, []] ++ (splitLines d ++ [[], closeMark])))) ++ rest =
          codeStartMark :: (splitLines code ++ (codeEndMark :: [] :: outSampleLine :: [] ::
            (splitLines d ++ ([] :: closeMark :: rest)))) := by
        simp
      rw [hll, List.foldl_cons, step_codeStart_raw, List.foldl_append,
        foldl_code acc m (splitLines code) [] hlines, List.nil_append,
        List.foldl_cons, step_codeEnd acc m (splitLines code) (splitLines_ne_nil code),
        joinLines_splitLines, hstable,
        List.foldl_cons, step_blank_raw,
        List.foldl_cons, step_outSample_raw,
        List.foldl_cons,
        step_line_out (acc ++ [(⟨.js, code, none, []⟩ : ProtoCell)]) m [] [] (by decide),
        show jsAppend ([] : Chars) ([] : Chars) = [] from rfl,
        List.foldl_append,
        foldl_out (acc ++ [(⟨.js, code, none, []⟩ : ProtoCell)]) m (splitLines d) [] hdlines,
        foldl_jsAppend_splitLines d hdstable hdne,
        List.foldl_cons,
        step_line_out (acc ++ [(⟨.js, code, none, []⟩ : ProtoCell)]) m d [] (by decide),
        show jsAppend d [] = d ++ ['\n'] from by unfold jsAppend; rw [if_neg hdne],
        List.foldl_cons,
        step_close_out (acc ++ [(⟨.js, code, none, []⟩ : ProtoCell)]) m (d ++ ['\n'])
          (by rw [trimText_append_nl d hdstable hdne]; exact hdne) (by simp),
        trimText_append_nl d hdstable hdne,
        attachToLastJs_append_js acc (⟨.js, code, none, []⟩ : ProtoCell) (.log d) rfl]
      rfl
  · simp only [Bool.and_eq_true] at hty
    obtain ⟨hmode, hempty⟩ := hty
    rcases mode with _ | mm
    · simp [Option.isSome] at hmode
    rcases outputs with _ | ⟨o, os⟩
    case cons => simp [List.isEmpty] at hempty
    rcases mm with _ | _
    · show List.foldl parseStep ⟨acc, [], [], [], false, false, false, m⟩
          ((mdMark :: (splitLines code ++ [closeMark])) ++ rest) =
        List.foldl parseStep
          ⟨acc ++ [⟨.md, code, some .edit, []⟩], [], [], [], false, false, false, .edit⟩ rest
      have hll : (mdMark :: (splitLines code ++ [closeMark])) ++ rest =
          mdMark :: (splitLines code ++ (closeMark :: rest)) := by
        simp
      rw [hll, List.foldl_cons, step_mdMark_raw, List.foldl_append,
        foldl_md acc MdMode.edit (splitLines code) [] hlines,
        foldl_jsAppend_splitLines code hstable hne,
        List.foldl_cons,
        step_close_md acc MdMode.edit code (by rw [hstable]; exact hne),
        hstable]
    · show List.foldl parseStep ⟨acc, [], [], [], false, false, false, m⟩
          ((mdRenderLine :: (splitLines code ++ [closeMark])) ++ rest) =
        List.foldl parseStep
          ⟨acc ++ [⟨.md, code, some .render, []⟩], [], [], [], false, false, false, .render⟩ rest
      have hll : (mdRenderLine :: (splitLines code ++ [closeMark])) ++ rest =
          mdRenderLine :: (splitLines code ++ (closeMark :: rest)) := by
        simp
      rw [hll, List.foldl_cons, step_mdRender_raw, List.foldl_append,
        foldl_md acc MdMode.render (splitLines code) [] hlines,
        foldl_jsAppend_splitLines code hstable hne,
        List.foldl_cons,
        step_close_md acc MdMode.render code (by rw [hstable]; exact hne),
        hstable]

/-- Folding the parser over a clean cell list's serialized lines appends
exactly those cells to the accumulator, ending in a neutral state. -/
lemma parse_allLines : ∀ (cells : List ProtoCell), cells.all cleanCellB = true →
    ∀ (acc : List ProtoCell) (m : MdMode),
    ∃ m2, List.foldl parseStep (neutralSt acc m) (allLines cells) =
      neutralSt (acc ++ cells) m2
  | [], _, acc, m => ⟨m, by rw [List.append_nil]; rfl⟩
  | [c], hall, acc, m => by
    simp only [List.all_cons, List.all_nil, Bool.and_eq_true] at hall
    refine ⟨nextMode c m, ?_⟩
    have h := parse_cell c hall.1 acc m []
    rw [List.append_nil] at h
    exact h
  | c :: b :: t, hall, acc, m => by
    simp only [List.all_cons, Bool.and_eq_true] at hall
    obtain ⟨hc, hb, ht⟩ := hall
    have h1 := parse_cell c hc acc m ([] :: allLines (b :: t))
    have h2 : List.foldl parseStep (neutralSt (acc ++ [c]) (nextMode c m))
        ([] :: allLines (b :: t)) =
        List.foldl parseStep (neutralSt (acc ++ [c]) (nextMode c m)) (allLines (b :: t)) := by
      show List.foldl parseStep
        (parseStep ⟨acc ++ [c], [], [], [], false, false, false, nextMode c m⟩ [])
        (allLines (b :: t)) = _
      rw [step_blank_raw]
      rfl
    obtain ⟨m2, h3⟩ := parse_allLines (b :: t) (by simp [hb, ht]) (acc ++ [c]) (nextMode c m)
    refine ⟨m2, ?_⟩
    show List.foldl parseStep (neutralSt acc m) (cellLines c ++ [] :: allLines (b :: t)) = _
    rw [h1, h2, h3]
    simp [List.append_assoc]

/-- C1: the claim states that saving a notebook and re-opening the file
reconstructs the same cell list. This holds only for clean cell lists
(nonempty trim-stable texts with no marker-colliding lines, code cells
with at most one clean, escape-free log output, markdown cells with a
mode and no outputs); `claim1_counterexample` shows a cell with two log
outputs round-trips to a different cell list, so the claim as stated is
corrected to this clean-cell version. -/
theorem claim1_roundtrip (cells : List ProtoCell)
    (hall : cells.all cleanCellB = true) :
    parseNotebookFile (downloadNotebook cells) = cells := by
  rcases cells with _ | ⟨c, rest⟩
  · rfl
  · rw [downloadNotebook_eq (c :: rest) (by simp) hall]
    unfold parseNotebookFile parseLinesF
    rw [splitLines_joinLines (allLines (c :: rest)) (allLines_ne_nil _ (by simp))
        (allLines_noNL (c :: rest))]
    obtain ⟨m2, h⟩ := parse_allLines (c :: rest) hall [] MdMode.edit
    show (finishParse (List.foldl parseStep (neutralSt [] MdMode.edit)
      (allLines (c :: rest)))).acc = c :: rest
    rw [h, finishParse_neutral]
    rfl

/-- C1 counterexample: a code cell with two log outputs serializes both
into one output block, which the parser reads back as a single log whose
text is the two texts joined by a blank line — the round trip is not the
identity on all cell lists. -/
theorem claim1_counterexample :
    parseNotebookFile (downloadNotebook
      [⟨.js, "x".toList, none, [.log "a".toList, .log "b".toList]⟩]) =
      [⟨.js, "x".toList, none, [.log "a\n\nb".toList]⟩] ∧
    [⟨.js, "x".toList, none, [.log "a\n\nb".toList]⟩] ≠
      [(⟨.js, "x".toList, none, [.log "a".toList, .log "b".toList]⟩ : ProtoCell)] := by
  constructor
  · decide
  · decide

theorem claim1_roundtrip_witness :
    ([⟨.js, "y = 1\nout(y + 1)".toList, none, [.log "2".toList]⟩,
      ⟨.md, "# hello".toList, some .render, []⟩,
      ⟨.js, "out(3)".toList, none, []⟩] : List ProtoCell).all cleanCellB = true ∧
    parseNotebookFile (downloadNotebook
      [⟨.js, "y = 1\nout(y + 1)".toList, none, [.log "2".toList]⟩,
       ⟨.md, "# hello".toList, some .render, []⟩,
       ⟨.js, "out(3)".toList, none, []⟩]) =
      [⟨.js, "y = 1\nout(y + 1)".toList, none, [.log "2".toList]⟩,
       ⟨.md, "# hello".toList, some .render, []⟩,
       ⟨.js, "out(3)".toList, none, []⟩] :=
  ⟨by decide, claim1_roundtrip
    [⟨.js, "y = 1\nout(y + 1)".toList, none, [.log "2".toList]⟩,
     ⟨.md, "# hello".toList, some .render, []⟩,
     ⟨.js, "out(3)".toList, none, []⟩] (by decide)⟩

end NotebookModel
